import Mathlib

/-!
Verification of the error-classification and observability core of the
api-service-poc repository: the error taxonomy (BaseError / ApiError and its
subclasses), the log sanitizer (log-sanitizer.ts), the LogMethod
instrumentation decorator, the global error handler (error.middleware.ts) and
the user service identifier validation (user.service.ts).  JavaScript objects
are embedded as finite key-value lists, machine integers as Nat/Int, thrown
errors as Except values, and the mutable WeakSet of the sanitizer as an
explicitly threaded finite set of heap addresses.
-/

namespace ApiServicePoc

/-- JSON-like runtime values used for response bodies and error context maps.
The `undef` constructor stands for the JavaScript undefined value, which can
occur as the value of a present key (for example the optional details of a
ValidationError). -/
inductive Json where
  | str (s : String)
  | num (n : Int)
  | bool (b : Bool)
  | null
  | undef
  | arr (xs : List Json)
  | obj (fields : List (String × Json))

/-- A context map, the Record of string to unknown passed to error
constructors (values embedded as Json). -/
abbrev Ctx := List (String × Json)

/-- Runtime class of an error object extending ApiError; needed because
toClientResponse dispatches dynamically (ValidationError overrides it) and the
error middleware records the constructor name as a metric label. -/
inductive ApiErrorClass where
  | apiError
  | invalidIdError
  | notFoundError
  | conflictError
  | unauthorizedError
  | validationError
deriving DecidableEq, Repr

/-- A field-level validation detail, the elements of the details array of
ValidationError. -/
structure FieldDetail where
  field : String
  message : String
deriving DecidableEq, Repr

/-- An error value of class ApiError or one of its subclasses
(api.error.ts / base.error.ts).  The fields mirror BaseError (message, code,
isOperational, context, timestamp) plus the ApiError statusCode; details is
only populated by the ValidationError constructor.  The timestamp Date is
embedded as a Nat captured at construction time. -/
structure ApiError where
  cls : ApiErrorClass
  message : String
  statusCode : Nat
  code : String
  isOperational : Bool
  context : Option Ctx
  timestamp : Nat
  details : Option (List FieldDetail)

/-- Abstraction of Date.prototype.toISOString: an injective rendering of the
captured instant.  The claims never inspect the format, only the presence of
the timestamp key. -/
def isoString (t : Nat) : String := toString t

/-- Constructor of ApiError (api.error.ts lines 13-21): calls
super(message, code, true, context), so isOperational is always true, and
stores the status code.  The now argument is the Date captured by the
BaseError constructor. -/
def ApiError.make (message : String) (statusCode : Nat) (code : String)
    (context : Option Ctx) (now : Nat) : ApiError :=
  { cls := .apiError
    message := message
    statusCode := statusCode
    code := code
    isOperational := true
    context := context
    timestamp := now
    details := none }

/-- Spread of an optional context map followed by extra entries, embedding
the JavaScript object literal with spread, as in the InvalidIdError
constructor. Later keys win on lookup in JavaScript; the embedding
keeps all entries and the claims only use the whole map opaquely. -/
def spreadCtx (context : Option Ctx) (extra : Ctx) : Ctx :=
  context.getD [] ++ extra

/-- Constructor of InvalidIdError (invalid-id.error.ts): message
interpolates the offending id, status 400, code INVALID_ID_FORMAT, context
extended with the id. -/
def InvalidIdError.make (id : String) (context : Option Ctx) (now : Nat) : ApiError :=
  { ApiError.make ("Invalid ID format: " ++ id) 400 "INVALID_ID_FORMAT"
      (some (spreadCtx context [("id", .str id)])) now with
    cls := .invalidIdError }

/-- Truthiness of an optional string argument, as tested by the conditional
in the NotFoundError constructor (the empty string is falsy). -/
def truthyOptStr : Option String → Bool
  | some s => s ≠ ""
  | none => false

/-- Constructor of NotFoundError (not-found.error.ts): message depends on
whether an identifier was supplied (truthily), status 404, code NOT_FOUND,
context extended with resource and identifier. -/
def NotFoundError.make (resource : String) (identifier : Option String)
    (context : Option Ctx) (now : Nat) : ApiError :=
  let message :=
    if truthyOptStr identifier then
      resource ++ " with identifier '" ++ identifier.getD "" ++ "' not found"
    else
      resource ++ " not found"
  { ApiError.make message 404 "NOT_FOUND"
      (some (spreadCtx context
        [("resource", .str resource),
         ("identifier", match identifier with
            | some i => .str i
            | none => .undef)])) now with
    cls := .notFoundError }

/-- Constructor of ConflictError (conflict.error.ts): status 409, code
CONFLICT. -/
def ConflictError.make (message : String) (context : Option Ctx) (now : Nat) : ApiError :=
  { ApiError.make message 409 "CONFLICT" context now with cls := .conflictError }

/-- Constructor of UnauthorizedError (unauthorized.error.ts): status 401,
code UNAUTHORIZED, message defaulting to Unauthorized at call sites that omit
it. -/
def UnauthorizedError.make (message : String) (context : Option Ctx) (now : Nat) : ApiError :=
  { ApiError.make message 401 "UNAUTHORIZED" context now with cls := .unauthorizedError }

/-- Constructor of ValidationError (the validation error class extending
ApiError): status 400, code VALIDATION_ERROR, plus the optional field-level
details array. -/
def ValidationError.make (message : String) (details : Option (List FieldDetail))
    (context : Option Ctx) (now : Nat) : ApiError :=
  { ApiError.make message 400 "VALIDATION_ERROR" context now with
    cls := .validationError
    details := details }

/-- Rendering of the optional details array as the Json value placed under
the details key by ValidationError.toClientResponse (undefined when the
constructor received no details). -/
def detailsJson : Option (List FieldDetail) → Json
  | none => .undef
  | some ds => .arr (ds.map fun d => .obj [("field", .str d.field), ("message", .str d.message)])

/-- Client-safe response of an error (api.error.ts toClientResponse, with the
ValidationError override spreading the base response and appending details).
The result is the JSON object sent to the client, as a key-value list. -/
def ApiError.toClientResponse (e : ApiError) : List (String × Json) :=
  let base : List (String × Json) :=
    [("success", .bool false),
     ("error", .str e.message),
     ("code", .str e.code),
     ("timestamp", .str (isoString e.timestamp))]
  match e.cls with
  | .validationError => base ++ [("details", detailsJson e.details)]
  | _ => base

/-- An error value extending only BaseError, without an HTTP status
(configuration.error.ts, database.error.ts). -/
structure BaseErrorOnly where
  message : String
  code : String
  isOperational : Bool
  context : Option Ctx
  timestamp : Nat

/-- Constructor of ConfigurationError: code CONFIGURATION_ERROR and
isOperational explicitly false. -/
def ConfigurationError.make (message : String) (context : Option Ctx) (now : Nat) :
    BaseErrorOnly :=
  { message := message
    code := "CONFIGURATION_ERROR"
    isOperational := false
    context := context
    timestamp := now }

/-- Constructor of DatabaseError: code DATABASE_ERROR, isOperational true,
context extended with the operation name. -/
def DatabaseError.make (message : String) (operation : String)
    (context : Option Ctx) (now : Nat) : BaseErrorOnly :=
  { message := message
    code := "DATABASE_ERROR"
    isOperational := true
    context := some (spreadCtx context [("operation", .str operation)])
    timestamp := now }

/-- Any error value of the taxonomy: either an ApiError subclass (carrying an
HTTP status) or a BaseError-only kind (no HTTP status). -/
inductive AppError where
  | api (e : ApiError)
  | base (e : BaseErrorOnly)

/-- The optional HTTP status carried by an error of the taxonomy: present
exactly on ApiError and its subclasses. -/
def AppError.httpStatus : AppError → Option Nat
  | .api e => some e.statusCode
  | .base _ => none

/-- The isOperational flag of any error of the taxonomy. -/
def AppError.isOperational : AppError → Bool
  | .api e => e.isOperational
  | .base e => e.isOperational

/-- The errors constructible through the constructors of the taxonomy:
one rule per class constructor in src/src/errors (plus the validation error
class).  Quantifies over all constructor arguments. -/
inductive Constructible : AppError → Prop where
  | apiError (m : String) (st : Nat) (c : String) (ctx : Option Ctx) (now : Nat) :
      Constructible (.api (ApiError.make m st c ctx now))
  | invalidId (id : String) (ctx : Option Ctx) (now : Nat) :
      Constructible (.api (InvalidIdError.make id ctx now))
  | notFound (r : String) (i : Option String) (ctx : Option Ctx) (now : Nat) :
      Constructible (.api (NotFoundError.make r i ctx now))
  | conflict (m : String) (ctx : Option Ctx) (now : Nat) :
      Constructible (.api (ConflictError.make m ctx now))
  | unauthorized (m : String) (ctx : Option Ctx) (now : Nat) :
      Constructible (.api (UnauthorizedError.make m ctx now))
  | validation (m : String) (ds : Option (List FieldDetail)) (ctx : Option Ctx) (now : Nat) :
      Constructible (.api (ValidationError.make m ds ctx now))
  | configuration (m : String) (ctx : Option Ctx) (now : Nat) :
      Constructible (.base (ConfigurationError.make m ctx now))
  | database (m : String) (op : String) (ctx : Option Ctx) (now : Nat) :
      Constructible (.base (DatabaseError.make m op ctx now))

/-- Keys of a JSON object given as a key-value list. -/
def keysOf (fields : List (String × Json)) : List String := fields.map Prod.fst

/-- C1: for every ApiError (every error kind carrying an httpStatus, including
ValidationError) and for all constructor arguments, the client view produced
by toClientResponse contains exactly the keys success (false), error (the
message), code and timestamp, plus details for ValidationError, and never
contains a context key or a stack key.  Stated for every value of the ApiError
structure, hence in particular for every constructible one with a non-empty
context map. -/
theorem toClientResponse_exact_keys_no_context (e : ApiError) :
    keysOf e.toClientResponse =
      (if e.cls = .validationError then
        ["success", "error", "code", "timestamp", "details"]
      else
        ["success", "error", "code", "timestamp"]) ∧
    e.toClientResponse.lookup "success" = some (.bool false) ∧
    e.toClientResponse.lookup "error" = some (.str e.message) ∧
    e.toClientResponse.lookup "code" = some (.str e.code) ∧
    e.toClientResponse.lookup "timestamp" = some (.str (isoString e.timestamp)) ∧
    "context" ∉ keysOf e.toClientResponse ∧
    "stack" ∉ keysOf e.toClientResponse := by
  obtain ⟨cls, m, st, c, op, ctx, ts, ds⟩ := e
  cases cls <;>
    simp [ApiError.toClientResponse, keysOf, List.lookup]

/-- C2: every error constructible through the constructors of the taxonomy
that carries an httpStatus (ApiError and its subclasses) has isOperational
true; equivalently no constructible error with isOperational false carries an
httpStatus (ConfigurationError, the only kind constructed with isOperational
false, has none). -/
theorem httpStatus_implies_isOperational (e : AppError)
    (hc : Constructible e) (hs : e.httpStatus.isSome) :
    e.isOperational = true := by
  cases hc <;> first
    | rfl
    | simp [AppError.httpStatus] at hs

/-- Witness for C2 at a concrete constructible error carrying a status. -/
theorem httpStatus_implies_isOperational_witness :
    (AppError.api (InvalidIdError.make "user1" none 5)).httpStatus.isSome = true ∧
    (AppError.api (InvalidIdError.make "user1" none 5)).isOperational = true :=
  ⟨rfl, httpStatus_implies_isOperational _ (Constructible.invalidId "user1" none 5) rfl⟩

/-!
Embedding of the log sanitizer (src/utils/log-sanitizer.ts and its
constants).  JavaScript values are primitives or references into a heap of
objects; the WeakSet of visited references becomes an explicitly threaded
finite set of addresses.  Each sanitizing function returns, next to its
result, the set of addresses it newly added to the visited set (the JavaScript
WeakSet after a call is the union of the set before the call and that
returned set); recursion is paced by a fuel argument that the wrapper
initialises to more than the number of allocated objects, which is an upper
bound on the depth of visited-reference chains because every recursive
descent adds one fresh address to the visited set.
-/

/-- A JavaScript primitive (non-object) value: values for which typeof is not
object, plus null (which the sanitizer returns unchanged just like
primitives).  Functions are represented by fn; only their typeof matters to
the code under verification. -/
inductive JSPrim where
  | str (s : String)
  | num (n : Int)
  | bool (b : Bool)
  | null
  | undef
  | fn
deriving DecidableEq, Repr

/-- A JavaScript runtime value: a primitive or a reference to a heap
object. -/
inductive JSVal where
  | prim (p : JSPrim)
  | ref (a : Nat)
deriving DecidableEq, Repr

/-- A heap object: its Array.isArray status and its enumerable own
string-keyed entries in Object.entries order. -/
structure HeapObj where
  isArray : Bool
  fields : List (String × JSVal)
deriving DecidableEq, Repr

/-- A heap: a finite association of addresses to objects. -/
abbrev Heap := List (Nat × HeapObj)

/-- Lookup of the object denoted by an address. -/
def lookupObj (h : Heap) (a : Nat) : Option HeapObj := h.lookup a

/-- The output of the sanitizer: a value passed through unchanged (primitives,
arrays and marker strings) or a freshly created plain object. -/
inductive SVal where
  | pass (v : JSVal)
  | sobj (fields : List (String × SVal))

/-- The configured sensitive-field substrings
(constants/log-sanitizer.constants.ts). -/
def SENSITIVE_FIELDS : List String :=
  ["password", "apikey", "api-key", "token", "secret", "authorization"]

/-- The redaction marker. -/
def REDACTED : String := "[REDACTED]"

/-- The marker substituted for framework request/reply objects. -/
def FASTIFY_OBJECT_MARKER : String := "[FastifyRequest/Reply]"

/-- The marker substituted at a reference that is already open. -/
def CIRCULAR_REFERENCE_MARKER : String := "[Circular]"

/-- Lowercasing followed by removal of the separator characters, as done by
toLowerCase and the global replace of dash and underscore in isSensitiveKey
(lowercasing embedded character by character; every configured sensitive
field is plain ASCII). -/
def normalizeKey (k : String) : String :=
  String.mk ((k.data.map Char.toLower).filter fun c => !(c == '-' || c == '_'))

/-- Substring containment, the semantics of String.prototype.includes. -/
def containsSubstr (hay needle : String) : Bool :=
  decide (needle.data <:+: hay.data)

/-- A key is sensitive when its normalized form contains the normalized form
of one of the configured sensitive fields (log-sanitizer.ts
isSensitiveKey). -/
def isSensitiveKey (k : String) : Bool :=
  SENSITIVE_FIELDS.any fun field =>
    containsSubstr (normalizeKey k) (normalizeKey field)

/-- Access of a named property of an object (absent keys read as
undefined via the Option). -/
def getField (o : HeapObj) (k : String) : Option JSVal := o.fields.lookup k

/-- JavaScript truthiness of a value (references are always truthy; the
number embedding has no NaN, which the code never produces in the tested
positions). -/
def truthy : JSVal → Bool
  | .prim (.str s) => !(s == "")
  | .prim (.num n) => !(n == 0)
  | .prim (.bool b) => b
  | .prim .null => false
  | .prim .undef => false
  | .prim .fn => true
  | .ref _ => true

/-- Truthiness of a property read, with absent properties falsy. -/
def fieldTruthy (o : HeapObj) (k : String) : Bool :=
  match getField o k with
  | some v => truthy v
  | none => false

/-- Test that a property holds a function (typeof obj.k is function). -/
def isFnField (o : HeapObj) (k : String) : Bool :=
  match getField o k with
  | some (.prim .fn) => true
  | _ => false

/-- Duck-typed logger detection (log-sanitizer.ts isLoggerObject): an object
value whose child and info properties are both functions. -/
def isLoggerObject (h : Heap) (v : JSVal) : Bool :=
  match v with
  | .ref a =>
    match lookupObj h a with
    | some o => isFnField o "child" && isFnField o "info"
    | none => false
  | .prim _ => false

/-- Duck-typed framework object detection (log-sanitizer.ts isFastifyObject)
applied to a heap object: truthiness of raw, log or request. -/
def isFastifyObject (o : HeapObj) : Bool :=
  fieldTruthy o "raw" || fieldTruthy o "log" || fieldTruthy o "request"

/-- Test for typeof val being object with val not null: exactly the reference
values in this embedding. -/
def isObjectVal : JSVal → Bool
  | .ref _ => true
  | .prim _ => false

/-- Array.isArray of a value. -/
def isArrayVal (h : Heap) : JSVal → Bool
  | .ref a =>
    match lookupObj h a with
    | some o => o.isArray
    | none => false
  | .prim _ => false

/-- The headers copy (log-sanitizer.ts sanitizeHeaders): a fresh object with
the same keys, redacting values at sensitive keys and copying every other
value verbatim (no recursion and no visited-set involvement). -/
def sanitizeHeaders (o : HeapObj) : SVal :=
  .sobj (o.fields.map fun kv =>
    (kv.1, if isSensitiveKey kv.1 then SVal.pass (.prim (.str REDACTED)) else SVal.pass kv.2))

/-- Application of sanitizeHeaders to the value stored under a headers key;
the caller has already established that the value is an object. -/
def sanitizeHeadersVal (h : Heap) : JSVal → SVal
  | .ref a =>
    match lookupObj h a with
    | some o => sanitizeHeaders o
    | none => .sobj []
  | .prim _ => .sobj []

/-- One iteration of the key loop of sanitizeValue (log-sanitizer.ts lines
54-64), parametrized by the recursive call f: sensitive keys are redacted,
a headers-keyed object value goes through sanitizeHeaders, any other
non-array object value is sanitized recursively, and everything else is
copied by reference.  The returned set holds the addresses newly added to the
visited set by the recursive call, if any. -/
def sanitizeEntry (h : Heap) (f : JSVal → Finset Nat → SVal × Finset Nat)
    (k : String) (val : JSVal) (seen : Finset Nat) : SVal × Finset Nat :=
  if isSensitiveKey k then (.pass (.prim (.str REDACTED)), ∅)
  else if k == "headers" && isObjectVal val then (sanitizeHeadersVal h val, ∅)
  else if isObjectVal val && !isArrayVal h val then f val seen
  else (.pass val, ∅)

/-- The key loop of sanitizeValue over the entries of an object, threading
the growing visited set left to right (the JavaScript WeakSet is mutated in
place, so later entries observe additions made by earlier ones). -/
def sanitizeFields (h : Heap) (f : JSVal → Finset Nat → SVal × Finset Nat) :
    List (String × JSVal) → Finset Nat → List (String × SVal) × Finset Nat
  | [], _ => ([], ∅)
  | (k, val) :: rest, seen =>
    let pr := sanitizeEntry h f k val seen
    let prs := sanitizeFields h f rest (seen ∪ pr.2)
    ((k, pr.1) :: prs.1, pr.2 ∪ prs.2)

/-- The recursive sanitizeValue (log-sanitizer.ts lines 43-67) with an
explicit fuel pacing the recursion: non-objects pass through, an already
visited reference becomes the circular marker, the reference is then added to
the visited set, framework objects collapse to their marker, and otherwise a
fresh object is built from the sanitized entries.  The fuel-exhausted branch
is unreachable from sanitizeValue below, because every level of descent adds
a distinct allocated address to the visited set. -/
def sanitizeValueFuel (h : Heap) : Nat → JSVal → Finset Nat → SVal × Finset Nat
  | 0, _, _ => (.pass (.prim .undef), ∅)
  | fuel + 1, v, seen =>
    match v with
    | .prim p => (.pass (.prim p), ∅)
    | .ref a =>
      if a ∈ seen then (.pass (.prim (.str CIRCULAR_REFERENCE_MARKER)), ∅)
      else
        match lookupObj h a with
        | none => (.sobj [], {a})
        | some o =>
          if isFastifyObject o then (.pass (.prim (.str FASTIFY_OBJECT_MARKER)), {a})
          else
            let pr := sanitizeFields h (fun v s => sanitizeValueFuel h fuel v s)
              o.fields (insert a seen)
            (.sobj pr.1, insert a pr.2)

/-- The sanitizeValue entry point: fuel one more than the number of allocated
objects, an upper bound on any chain of distinct visited references. -/
def sanitizeValue (h : Heap) (v : JSVal) (seen : Finset Nat) : SVal × Finset Nat :=
  sanitizeValueFuel h (h.length + 1) v seen

/-- The map over the filtered arguments sharing one visited set
(sanitizeLogArgs builds a single WeakSet for the whole call). -/
def sanitizeSeq (h : Heap) : List JSVal → Finset Nat → List SVal
  | [], _ => []
  | v :: rest, seen =>
    let pr := sanitizeValue h v seen
    pr.1 :: sanitizeSeq h rest (seen ∪ pr.2)

/-- The exported sanitizeLogArgs (log-sanitizer.ts lines 18-21): drop logger
arguments, then sanitize each remaining argument with the shared visited
set. -/
def sanitizeLogArgs (h : Heap) (args : List JSVal) : List SVal :=
  sanitizeSeq h (args.filter fun arg => !isLoggerObject h arg) ∅

/-- The key loop preserves the keys of the object, in order, whatever the
recursive call does. -/
theorem sanitizeFields_keys (h : Heap) (f : JSVal → Finset Nat → SVal × Finset Nat)
    (fields : List (String × JSVal)) :
    ∀ seen, (sanitizeFields h f fields seen).1.map Prod.fst = fields.map Prod.fst := by
  induction fields with
  | nil => intro seen; rfl
  | cons kv rest ih =>
    intro seen
    obtain ⟨k, val⟩ := kv
    simp [sanitizeFields, ih]

/-- Every entry of the key loop output under a sensitive key holds the
redaction marker, whatever the recursive call does. -/
theorem sanitizeFields_sensitive_mem (h : Heap) (f : JSVal → Finset Nat → SVal × Finset Nat)
    (fields : List (String × JSVal)) :
    ∀ seen k sv, (k, sv) ∈ (sanitizeFields h f fields seen).1 →
      isSensitiveKey k = true → sv = .pass (.prim (.str REDACTED)) := by
  induction fields with
  | nil => intro seen k sv hm; simp [sanitizeFields] at hm
  | cons kv rest ih =>
    intro seen k sv hm hk
    obtain ⟨k1, val⟩ := kv
    simp only [sanitizeFields, List.mem_cons] at hm
    rcases hm with hm | hm
    · obtain ⟨hk1, hv⟩ := Prod.mk.injEq .. ▸ hm
      subst hk1
      rw [hv, sanitizeEntry, if_pos hk]
    · exact ih _ _ _ hm hk

/-- Every sensitive key of the object reappears in the key loop output bound
to the redaction marker, whatever the recursive call does and whatever the
original value was (in particular null or undefined). -/
theorem sanitizeFields_sensitive_present (h : Heap)
    (f : JSVal → Finset Nat → SVal × Finset Nat) (fields : List (String × JSVal)) :
    ∀ seen k v, (k, v) ∈ fields → isSensitiveKey k = true →
      (k, SVal.pass (.prim (.str REDACTED))) ∈ (sanitizeFields h f fields seen).1 := by
  induction fields with
  | nil => intro seen k v hm; simp at hm
  | cons kv rest ih =>
    intro seen k v hm hk
    obtain ⟨k1, val⟩ := kv
    simp only [List.mem_cons] at hm
    rcases hm with hm | hm
    · obtain ⟨hk1, hv⟩ := Prod.mk.injEq .. ▸ hm
      subst hk1
      simp only [sanitizeFields, List.mem_cons]
      left
      rw [sanitizeEntry, if_pos hk]
    · simp only [sanitizeFields, List.mem_cons]
      exact Or.inr (ih _ _ _ hm hk)

/-- A non-array object-valued entry under a non-sensitive key other than
headers whose reference is already in the visited set comes out as the
circular-reference marker, provided the recursive call behaves that way on
visited references (which sanitizeValueFuel does at any positive fuel). -/
theorem sanitizeFields_selfref (h : Heap) (f : JSVal → Finset Nat → SVal × Finset Nat)
    (fields : List (String × JSVal)) (a : Nat)
    (hf : ∀ s, a ∈ s → f (.ref a) s = (.pass (.prim (.str CIRCULAR_REFERENCE_MARKER)), ∅))
    (harr : isArrayVal h (.ref a) = false) :
    ∀ seen k0, a ∈ seen → (k0, JSVal.ref a) ∈ fields →
      isSensitiveKey k0 = false → (k0 == "headers") = false →
      (k0, SVal.pass (.prim (.str CIRCULAR_REFERENCE_MARKER))) ∈
        (sanitizeFields h f fields seen).1 := by
  induction fields with
  | nil => intro seen k0 _ hm; simp at hm
  | cons kv rest ih =>
    intro seen k0 hs hm hks hkh
    obtain ⟨k1, val⟩ := kv
    simp only [List.mem_cons] at hm
    rcases hm with hm | hm
    · obtain ⟨hk1, hv⟩ := Prod.mk.injEq .. ▸ hm
      subst hk1
      subst hv
      simp only [sanitizeFields, List.mem_cons]
      left
      rw [sanitizeEntry, if_neg (by simp [hks]), if_neg (by simp [hkh]),
        if_pos (by simp [isObjectVal, harr]), hf seen hs]
    · simp only [sanitizeFields, List.mem_cons]
      refine Or.inr (ih _ _ ?_ hm hks hkh)
      exact Finset.mem_union_left _ hs

/-- An array-valued entry under a non-sensitive key other than headers is
copied into the output by reference, unchanged, whatever the recursive call
does. -/
theorem sanitizeFields_array_pass (h : Heap) (f : JSVal → Finset Nat → SVal × Finset Nat)
    (fields : List (String × JSVal)) (b : Nat)
    (harr : isArrayVal h (.ref b) = true) :
    ∀ seen k0, (k0, JSVal.ref b) ∈ fields →
      isSensitiveKey k0 = false → (k0 == "headers") = false →
      (k0, SVal.pass (.ref b)) ∈ (sanitizeFields h f fields seen).1 := by
  induction fields with
  | nil => intro seen k0 hm; simp at hm
  | cons kv rest ih =>
    intro seen k0 hm hks hkh
    obtain ⟨k1, val⟩ := kv
    simp only [List.mem_cons] at hm
    rcases hm with hm | hm
    · obtain ⟨hk1, hv⟩ := Prod.mk.injEq .. ▸ hm
      subst hk1
      subst hv
      simp only [sanitizeFields, List.mem_cons]
      left
      rw [sanitizeEntry, if_neg (by simp [hks]), if_neg (by simp [hkh]),
        if_neg (by simp [isObjectVal, harr])]
    · simp only [sanitizeFields, List.mem_cons]
      exact Or.inr (ih _ _ hm hks hkh)

/-- Unfolding of a single-argument sanitizeLogArgs call on a non-logger,
non-framework object reference: the output is one fresh object built by the
key loop with the reference marked visited and the remaining fuel equal to
the heap size. -/
theorem sanitizeLogArgs_single_obj (h : Heap) (a : Nat) (o : HeapObj)
    (hl : lookupObj h a = some o) (hlog : isLoggerObject h (.ref a) = false)
    (hfas : isFastifyObject o = false) :
    sanitizeLogArgs h [.ref a] =
      [.sobj (sanitizeFields h (fun v s => sanitizeValueFuel h h.length v s)
        o.fields {a}).1] := by
  simp [sanitizeLogArgs, hlog, sanitizeSeq, sanitizeValue, sanitizeValueFuel, hl, hfas]

/-- C3 counterexample: the claim quantifies over every object value passed to
sanitize, but three concrete objects with the sensitive key password produce
no redacted entry: a framework-shaped object (truthy raw) collapses to the
framework marker string, a logger-shaped object (child and info functions) is
dropped from the output entirely, and a second occurrence of the same
reference in one call collapses to the circular marker because the visited
set is shared across arguments. -/
theorem sanitize_redacts_counterexample :
    sanitizeLogArgs [(0, ⟨false, [("raw", .prim (.bool true)),
        ("password", .prim (.str "hunter2"))]⟩)] [.ref 0] =
      [.pass (.prim (.str FASTIFY_OBJECT_MARKER))] ∧
    sanitizeLogArgs [(0, ⟨false, [("child", .prim .fn), ("info", .prim .fn),
        ("password", .prim (.str "hunter2"))]⟩)] [.ref 0] = [] ∧
    sanitizeLogArgs [(0, ⟨false, [("password", .prim (.str "hunter2"))]⟩)]
        [.ref 0, .ref 0] =
      [.sobj [("password", .pass (.prim (.str REDACTED)))],
       .pass (.prim (.str CIRCULAR_REFERENCE_MARKER))] :=
  ⟨rfl, rfl, rfl⟩

/-- C3 as amended: for every object argument of sanitize that is not dropped
as a logger, not collapsed as a framework object and not a repeated
reference, the output is a fresh object with the same keys in which every
key whose normalized name contains a configured sensitive substring is bound
to the redaction marker, whatever its original value (in particular null or
undefined), and every output entry under a sensitive key is the marker. -/
theorem sanitize_redacts_sensitive_keys (h : Heap) (a : Nat) (o : HeapObj)
    (hl : lookupObj h a = some o) (hlog : isLoggerObject h (.ref a) = false)
    (hfas : isFastifyObject o = false) :
    ∃ fs, sanitizeLogArgs h [.ref a] = [.sobj fs] ∧
      fs.map Prod.fst = o.fields.map Prod.fst ∧
      (∀ k sv, (k, sv) ∈ fs → isSensitiveKey k = true →
        sv = .pass (.prim (.str REDACTED))) ∧
      (∀ k v, (k, v) ∈ o.fields → isSensitiveKey k = true →
        (k, SVal.pass (.prim (.str REDACTED))) ∈ fs) := by
  refine ⟨_, sanitizeLogArgs_single_obj h a o hl hlog hfas, ?_, ?_, ?_⟩
  · exact sanitizeFields_keys ..
  · exact fun k sv hm hk => sanitizeFields_sensitive_mem _ _ _ _ _ _ hm hk
  · exact fun k v hm hk => sanitizeFields_sensitive_present _ _ _ _ _ _ hm hk

/-- Witness for the amended C3 at a concrete object carrying sensitive keys
with null and undefined values. -/
theorem sanitize_redacts_sensitive_keys_witness :
    lookupObj [(0, ⟨false, [("userPassword", .prim .null), ("apiToken", .prim .undef),
      ("name", .prim (.str "bob"))]⟩)] 0 =
      some ⟨false, [("userPassword", .prim .null), ("apiToken", .prim .undef),
        ("name", .prim (.str "bob"))]⟩ ∧
    isLoggerObject [(0, ⟨false, [("userPassword", .prim .null), ("apiToken", .prim .undef),
      ("name", .prim (.str "bob"))]⟩)] (.ref 0) = false ∧
    isFastifyObject (⟨false, [("userPassword", .prim .null), ("apiToken", .prim .undef),
      ("name", .prim (.str "bob"))]⟩ : HeapObj) = false ∧
    (∃ fs, sanitizeLogArgs [(0, ⟨false, [("userPassword", .prim .null),
        ("apiToken", .prim .undef), ("name", .prim (.str "bob"))]⟩)] [.ref 0] = [.sobj fs] ∧
      fs.map Prod.fst = [("userPassword", JSVal.prim .null), ("apiToken", .prim .undef),
        ("name", .prim (.str "bob"))].map Prod.fst ∧
      (∀ k sv, (k, sv) ∈ fs → isSensitiveKey k = true →
        sv = .pass (.prim (.str REDACTED))) ∧
      (∀ k v, (k, v) ∈ [("userPassword", JSVal.prim .null), ("apiToken", .prim .undef),
          ("name", .prim (.str "bob"))] → isSensitiveKey k = true →
        (k, SVal.pass (.prim (.str REDACTED))) ∈ fs)) :=
  ⟨rfl, rfl, rfl,
    sanitize_redacts_sensitive_keys
      [(0, ⟨false, [("userPassword", .prim .null), ("apiToken", .prim .undef),
        ("name", .prim (.str "bob"))]⟩)] 0
      ⟨false, [("userPassword", .prim .null), ("apiToken", .prim .undef),
        ("name", .prim (.str "bob"))]⟩ rfl rfl rfl⟩

/-- C4 counterexample: the object graph 0 with a property selfArr holding
array 1 whose element is object 0 again contains a cycle, sanitize
terminates on it, but no position is replaced by the circular-reference
marker: the array property is copied by reference, so the output retains a
raw reference into the cyclic structure. -/
theorem sanitize_cycle_counterexample :
    sanitizeLogArgs [(0, ⟨false, [("selfArr", .ref 1)]⟩), (1, ⟨true, [("0", .ref 0)]⟩)]
        [.ref 0] =
      [.sobj [("selfArr", .pass (.ref 1))]] :=
  rfl

/-- C4 as amended: sanitize is total in this embedding (it is a Lean
function, so it terminates on every heap, cyclic graphs included), and for
every object carrying a direct self-reference under a plain object property
(here the property self of the claim, a non-sensitive key other than headers,
with the object not detected as an array, logger or framework object), the
position where the cycle would reopen is replaced by the circular-reference
marker in the output. -/
theorem sanitize_marks_self_reference (h : Heap) (a : Nat) (o : HeapObj)
    (hl : lookupObj h a = some o) (hlog : isLoggerObject h (.ref a) = false)
    (hfas : isFastifyObject o = false) (harr : o.isArray = false)
    (hmem : ("self", JSVal.ref a) ∈ o.fields) :
    ∃ fs, sanitizeLogArgs h [.ref a] = [.sobj fs] ∧
      ("self", SVal.pass (.prim (.str CIRCULAR_REFERENCE_MARKER))) ∈ fs := by
  refine ⟨_, sanitizeLogArgs_single_obj h a o hl hlog hfas, ?_⟩
  refine sanitizeFields_selfref h _ o.fields a ?_ ?_ {a} "self"
    (Finset.mem_singleton_self a) hmem (by decide) (by decide)
  · intro s hs
    match h, hl with
    | x :: t, hl => simp [sanitizeValueFuel, hs]
  · simp [isArrayVal, hl, harr]

/-- Witness for the amended C4 at a concrete self-referencing object. -/
theorem sanitize_marks_self_reference_witness :
    lookupObj [(0, ⟨false, [("name", .prim (.str "n")), ("self", .ref 0)]⟩)] 0 =
      some ⟨false, [("name", .prim (.str "n")), ("self", .ref 0)]⟩ ∧
    isLoggerObject [(0, ⟨false, [("name", .prim (.str "n")), ("self", .ref 0)]⟩)]
      (.ref 0) = false ∧
    isFastifyObject (⟨false, [("name", .prim (.str "n")), ("self", .ref 0)]⟩ : HeapObj)
      = false ∧
    (⟨false, [("name", .prim (.str "n")), ("self", .ref 0)]⟩ : HeapObj).isArray = false ∧
    ("self", JSVal.ref 0) ∈
      (⟨false, [("name", .prim (.str "n")), ("self", .ref 0)]⟩ : HeapObj).fields ∧
    (∃ fs, sanitizeLogArgs [(0, ⟨false, [("name", .prim (.str "n")), ("self", .ref 0)]⟩)]
        [.ref 0] = [.sobj fs] ∧
      ("self", SVal.pass (.prim (.str CIRCULAR_REFERENCE_MARKER))) ∈ fs) :=
  ⟨rfl, rfl, rfl, rfl, by decide,
    sanitize_marks_self_reference _ 0 _ rfl rfl rfl rfl (by decide)⟩

/-- C10 counterexample: an array under the sensitive property name secretList
is not passed through by reference but redacted, and a top-level array
argument with a truthy raw property is not converted to an index-keyed
object but collapsed to the framework marker, so both universally quantified
parts of the claim fail as stated. -/
theorem sanitize_arrays_counterexample :
    sanitizeLogArgs [(0, ⟨false, [("secretList", .ref 1)]⟩),
        (1, ⟨true, [("0", .prim (.num 1))]⟩)] [.ref 0] =
      [.sobj [("secretList", .pass (.prim (.str REDACTED)))]] ∧
    sanitizeLogArgs [(0, ⟨true, [("raw", .prim (.bool true)), ("0", .prim (.num 1))]⟩)]
        [.ref 0] =
      [.pass (.prim (.str FASTIFY_OBJECT_MARKER))] :=
  ⟨rfl, rfl⟩

/-- C10 as amended: a top-level array argument that is not logger- or
framework-shaped is rebuilt as a fresh plain object keyed by the decimal
indices of its entries (the array type is not preserved), whereas an array
stored under a non-sensitive property other than headers of a sanitized
object is copied into the output by reference, unchanged and
unsanitized. -/
theorem sanitize_array_handling :
    (∀ (h : Heap) (a : Nat) (o : HeapObj), lookupObj h a = some o →
      o.isArray = true →
      isLoggerObject h (.ref a) = false → isFastifyObject o = false →
      o.fields.map Prod.fst = (List.range o.fields.length).map toString →
      ∃ fs, sanitizeLogArgs h [.ref a] = [.sobj fs] ∧
        fs.map Prod.fst = (List.range o.fields.length).map toString) ∧
    (∀ (h : Heap) (a : Nat) (o : HeapObj) (k : String) (b : Nat),
      lookupObj h a = some o →
      isLoggerObject h (.ref a) = false → isFastifyObject o = false →
      (k, JSVal.ref b) ∈ o.fields → isArrayVal h (.ref b) = true →
      isSensitiveKey k = false → (k == "headers") = false →
      ∃ fs, sanitizeLogArgs h [.ref a] = [.sobj fs] ∧
        (k, SVal.pass (.ref b)) ∈ fs) := by
  constructor
  · intro h a o hl harr hlog hfas hidx
    refine ⟨_, sanitizeLogArgs_single_obj h a o hl hlog hfas, ?_⟩
    rw [sanitizeFields_keys, hidx]
  · intro h a o k b hl hlog hfas hmem harr hks hkh
    refine ⟨_, sanitizeLogArgs_single_obj h a o hl hlog hfas, ?_⟩
    exact sanitizeFields_array_pass h _ o.fields b harr _ _ hmem hks hkh

/-- Witness for the amended C10: a two-element array argument becomes an
object keyed 0 and 1, and an array under the property items of an object is
passed through by reference. -/
theorem sanitize_array_handling_witness :
    (lookupObj [(0, ⟨true, [("0", .prim (.num 7)), ("1", .prim (.str "x"))]⟩)] 0 =
        some ⟨true, [("0", .prim (.num 7)), ("1", .prim (.str "x"))]⟩ ∧
      (∃ fs, sanitizeLogArgs [(0, ⟨true, [("0", .prim (.num 7)), ("1", .prim (.str "x"))]⟩)]
          [.ref 0] = [.sobj fs] ∧
        fs.map Prod.fst =
          (List.range ([("0", JSVal.prim (.num 7)),
            ("1", JSVal.prim (.str "x"))].length)).map toString)) ∧
    (lookupObj [(0, ⟨false, [("items", .ref 1)]⟩), (1, ⟨true, [("0", .prim (.num 1))]⟩)] 0 =
        some ⟨false, [("items", .ref 1)]⟩ ∧
      (∃ fs, sanitizeLogArgs [(0, ⟨false, [("items", .ref 1)]⟩),
          (1, ⟨true, [("0", .prim (.num 1))]⟩)] [.ref 0] = [.sobj fs] ∧
        ("items", SVal.pass (.ref 1)) ∈ fs)) :=
  ⟨⟨rfl, sanitize_array_handling.1
      [(0, ⟨true, [("0", .prim (.num 7)), ("1", .prim (.str "x"))]⟩)] 0
      ⟨true, [("0", .prim (.num 7)), ("1", .prim (.str "x"))]⟩
      rfl rfl rfl rfl (by decide)⟩,
   ⟨rfl, sanitize_array_handling.2
      [(0, ⟨false, [("items", .ref 1)]⟩), (1, ⟨true, [("0", .prim (.num 1))]⟩)] 0
      ⟨false, [("items", .ref 1)]⟩ "items" 1
      rfl rfl rfl (by decide) rfl rfl rfl⟩⟩

/-!
Embedding of the LogMethod instrumentation decorator
(decorators/log-method.decorator.ts, the metrics-emitting version): one
invocation of a wrapped method is a pure function of the request logger
presence, the arguments, the outcome of the awaited body (a normal return or
a thrown value, as an Except), and the elapsed wall-clock milliseconds; it
returns the propagated outcome together with the emitted log events and
metric samples in order.
-/

/-- A log event emitted through the request logger (as a child logger tagged
with the method name) or through the console; the error event carries the
caught value and the elapsed duration, matching the payloads of the
decorator. -/
inductive LogEvent (E : Type) where
  | entry (method : String) (args : List SVal) (msg : String)
  | exit (method : String) (duration : ℚ) (msg : String)
  | errorLog (method : String) (error : E) (duration : ℚ) (msg : String)
  | consoleWarn (msg : String)

/-- A metric sample: a histogram observation or a counter increment on a
named collector with its label set (metrics/collectors.ts). -/
inductive MetricEvent where
  | observe (metric : String) (labels : List (String × String)) (value : ℚ)
  | inc (metric : String) (labels : List (String × String))
deriving DecidableEq, Repr

/-- Conversion of elapsed milliseconds to the seconds value passed to the
duration histogram ((Date.now() - start) / 1000). -/
def msToSeconds (ms : Nat) : ℚ := (ms : ℚ) / 1000

/-- The status label of an invocation outcome: the status variable of the
decorator, success unless the catch branch ran. -/
def statusOf {E A : Type} : Except E A → String
  | .ok _ => "success"
  | .error _ => "error"

/-- One invocation of a method wrapped by LogMethod (log-method.decorator.ts
lines 63-100 of the metrics version): entry log with sanitized arguments
when a request logger is present (console warning otherwise), then either
the normal path (exit log, success-labeled duration observation and
invocation increment, the result returned) or the catch path (error log with
the caught value and duration, error-labeled duration observation and
invocation increment, the identical value re-thrown). -/
def logMethodWrap {E A : Type} (className propertyKey : String) (h : Heap)
    (args : List JSVal) (logger : Option Unit) (body : Except E A) (elapsedMs : Nat) :
    Except E A × List (LogEvent E) × List MetricEvent :=
  let entryEvents : List (LogEvent E) :=
    match logger with
    | some _ => [.entry propertyKey (sanitizeLogArgs h args)
        ("→ " ++ className ++ "." ++ propertyKey)]
    | none => [.consoleWarn ("No request logger for " ++ className ++ "." ++ propertyKey)]
  match body with
  | .ok result =>
    let duration := msToSeconds elapsedMs
    let exitEvents : List (LogEvent E) :=
      match logger with
      | some _ => [.exit propertyKey duration ("← " ++ className ++ "." ++ propertyKey)]
      | none => []
    (.ok result, entryEvents ++ exitEvents,
      [.observe "method_duration_seconds"
        [("class_name", className), ("method_name", propertyKey), ("status", "success")]
        duration,
       .inc "method_invocations_total"
        [("class_name", className), ("method_name", propertyKey), ("status", "success")]])
  | .error error =>
    let duration := msToSeconds elapsedMs
    let errEvents : List (LogEvent E) :=
      match logger with
      | some _ => [.errorLog propertyKey error duration
          ("✗ " ++ className ++ "." ++ propertyKey)]
      | none => []
    (.error error, entryEvents ++ errEvents,
      [.observe "method_duration_seconds"
        [("class_name", className), ("method_name", propertyKey), ("status", "error")]
        duration,
       .inc "method_invocations_total"
        [("class_name", className), ("method_name", propertyKey), ("status", "error")]])

/-- Test whether any emitted sample carries the given status label. -/
def containsStatus (samples : List MetricEvent) (st : String) : Bool :=
  samples.any fun ev =>
    match ev with
    | .observe _ labels _ => labels.any fun kv => kv.1 == "status" && kv.2 == st
    | .inc _ labels => labels.any fun kv => kv.1 == "status" && kv.2 == st

/-- C5: when the wrapped body throws, the wrapper logs the error with the
elapsed duration at error level when a request logger is present (and only a
console warning happens without one), emits exactly the error-labeled
duration observation and invocation increment, and re-throws the identical
error value unmodified, so the caller observes exactly the original thrown
value. -/
theorem logMethod_error_rethrows_unmodified (E A : Type) (className propertyKey : String)
    (h : Heap) (args : List JSVal) (e : E) (elapsedMs : Nat) :
    (logMethodWrap className propertyKey h args (some ())
        (Except.error e : Except E A) elapsedMs =
      (.error e,
       [.entry propertyKey (sanitizeLogArgs h args)
          ("→ " ++ className ++ "." ++ propertyKey),
        .errorLog propertyKey e (msToSeconds elapsedMs)
          ("✗ " ++ className ++ "." ++ propertyKey)],
       [.observe "method_duration_seconds"
          [("class_name", className), ("method_name", propertyKey), ("status", "error")]
          (msToSeconds elapsedMs),
        .inc "method_invocations_total"
          [("class_name", className), ("method_name", propertyKey), ("status", "error")]])) ∧
    (logMethodWrap className propertyKey h args none
        (Except.error e : Except E A) elapsedMs =
      (.error e,
       [.consoleWarn ("No request logger for " ++ className ++ "." ++ propertyKey)],
       [.observe "method_duration_seconds"
          [("class_name", className), ("method_name", propertyKey), ("status", "error")]
          (msToSeconds elapsedMs),
        .inc "method_invocations_total"
          [("class_name", className), ("method_name", propertyKey), ("status", "error")]])) :=
  ⟨rfl, rfl⟩

/-- C6: every single invocation emits exactly one duration observation and
one invocation-count increment, both labeled with the outcome of the body
(success on normal return, error on throw), and never carries both outcome
labels. -/
theorem logMethod_metrics_exactly_once (E A : Type) (className propertyKey : String)
    (h : Heap) (args : List JSVal) (logger : Option Unit) (body : Except E A)
    (elapsedMs : Nat) :
    (logMethodWrap className propertyKey h args logger body elapsedMs).2.2 =
      [.observe "method_duration_seconds"
        [("class_name", className), ("method_name", propertyKey),
         ("status", statusOf body)]
        (msToSeconds elapsedMs),
       .inc "method_invocations_total"
        [("class_name", className), ("method_name", propertyKey),
         ("status", statusOf body)]] ∧
    ¬(containsStatus (logMethodWrap className propertyKey h args logger body elapsedMs).2.2
        "success" = true ∧
      containsStatus (logMethodWrap className propertyKey h args logger body elapsedMs).2.2
        "error" = true) := by
  cases body <;>
    exact ⟨rfl, by simp [logMethodWrap, containsStatus]⟩

/-!
Embedding of the user service identifier validation (user.service.ts
getUserById) and of the global error handler (middleware/error.middleware.ts
errorHandler, registered as the single boundary error handler).
-/

/-- Test that a character is a hexadecimal digit. -/
def isHexChar (c : Char) : Bool :=
  c.isDigit || ('a' ≤ c && c ≤ 'f') || ('A' ≤ c && c ≤ 'F')

/-- Modelled from the spec: the bson ObjectId.isValid check used by
getUserById lives in the external MongoDB driver, specified only at its
interface boundary; the spec scenario quantifies over every string that is
not a valid 24-hex ObjectId, so validity is exactly being a 24-character
hexadecimal string. -/
def ObjectId.isValid (s : String) : Bool :=
  s.length == 24 && s.data.all isHexChar

/-- UserService.getUserById (user.service.ts): reject identifiers failing
ObjectId.isValid by throwing InvalidIdError with the method name in its
context, otherwise look the user up in the repository (the repository and
its users are opaque collaborators, abstracted by the findById function and
the element type U). -/
def UserService.getUserById {U : Type} (findById : String → Option U)
    (id : String) (now : Nat) : Except ApiError (Option U) :=
  if !ObjectId.isValid id then
    .error (InvalidIdError.make id (some [("method", .str "getUserById")]) now)
  else
    .ok (findById id)

/-- The constructor name of an error object, recorded by the error handler
as the error_type metric label. -/
def ApiError.className (e : ApiError) : String :=
  match e.cls with
  | .apiError => "ApiError"
  | .invalidIdError => "InvalidIdError"
  | .notFoundError => "NotFoundError"
  | .conflictError => "ConflictError"
  | .unauthorizedError => "UnauthorizedError"
  | .validationError => "ValidationError"

/-- Any value reaching the boundary error handler: an error of the taxonomy,
or a framework-level error carrying an optional status code and optional
schema-validation payload (FastifyError), whose message may be empty. -/
inductive Thrown where
  | app (e : AppError)
  | js (message : String) (statusCode : Option Nat) (validation : Option (List Json))
      (validationContext : Option String)

/-- Log events recorded by the error handler: the unconditional error-level
log of the raw thrown value, and the fatal-level log of the diagnostic
toJSON view of a non-operational error. -/
inductive HandlerLogEvent where
  | logError (t : Thrown)
  | logFatal (e : BaseErrorOnly)

/-- JavaScript string-or-default (the logical-or fallback): the default wins
when the option is absent or holds the falsy empty string. -/
def orDefaultStr (s : Option String) (d : String) : String :=
  match s with
  | some v => if v == "" then d else v
  | none => d

/-- JavaScript number-or-default (the logical-or fallback): the default wins
when the option is absent or holds the falsy zero. -/
def orDefaultNat (n : Option Nat) (d : Nat) : Nat :=
  match n with
  | some v => if v == 0 then d else v
  | none => d

/-- The generic error body builder (types/api-response.schema.ts
createErrorResponse): success false with the message. -/
def createErrorResponse (error : String) : List (String × Json) :=
  [("success", .bool false), ("error", .str error)]

/-- The not-found body builder (types/api-response.schema.ts
createNotFoundResponse): success false with the message, whose source-level
default argument is the string Not found; the error handler calls it with no
argument, so the call site below supplies that default. -/
def createNotFoundResponse (error : String) : List (String × Json) :=
  [("success", .bool false), ("error", .str error)]

/-- The validation body builder (types/api-response.schema.ts
createValidationErrorResponse): success false, the message, and a details
key holding the optional failing-field array (undefined when absent). -/
def createValidationErrorResponse (error : String) (details : Option (List Json)) :
    List (String × Json) :=
  [("success", .bool false), ("error", .str error),
   ("details", match details with
     | some ds => Json.arr ds
     | none => Json.undef)]

/-- The global error handler (error.middleware.ts errorHandler): log the raw
error unconditionally, then in order: an ApiError instance is answered with
its own status and client response and counted in the custom-error metric;
a non-operational BaseError is logged fatal and answered 500 with a generic
body; a framework error with status 404 gets the generic not-found body;
a framework schema-validation failure gets 400 with the validation body and
the validation-error metric; anything else is answered with its exposed
status or 500 and its message or the generic fallback.  The result is the
reply (status and body), the emitted metric samples and the log events. -/
def errorHandler (error : Thrown) (requestUrl : String) (routeUrl : Option String) :
    (Nat × List (String × Json)) × List MetricEvent × List HandlerLogEvent :=
  let logs0 : List HandlerLogEvent := [.logError error]
  match error with
  | .app (.api e) =>
    ((e.statusCode, e.toClientResponse),
     [.inc "api_custom_errors_total"
        [("error_type", e.className), ("error_code", e.code), ("endpoint", requestUrl)]],
     logs0)
  | .app (.base b) =>
    if !b.isOperational then
      ((500, createErrorResponse "Internal server error"), [], logs0 ++ [.logFatal b])
    else
      ((500, createErrorResponse (orDefaultStr (some b.message) "Internal server error")),
       [], logs0)
  | .js message statusCode validation validationContext =>
    if statusCode == some 404 then
      ((404, createNotFoundResponse "Not found"), [], logs0)
    else
      match validation with
      | some v =>
        ((400, createValidationErrorResponse "Validation error" (some v)),
         [.inc "validation_errors_total"
            [("endpoint", orDefaultStr routeUrl requestUrl),
             ("validation_type", orDefaultStr validationContext "unknown")]],
         logs0)
      | none =>
        ((orDefaultNat statusCode 500,
          createErrorResponse (orDefaultStr (some message) "Internal server error")),
         [], logs0)

/-- C7: for every string rejected by the ObjectId validity check (in
particular not-a-valid-id), getUserById throws InvalidIdError, and the
global error handler answers with HTTP 400 and a body whose success field is
false, whose error field interpolates the offending identifier, and whose
code field is INVALID_ID_FORMAT. -/
theorem getUserById_invalid_id (U : Type) (findById : String → Option U)
    (id : String) (now : Nat) (requestUrl : String) (routeUrl : Option String)
    (hid : ObjectId.isValid id = false) :
    UserService.getUserById findById id now =
      .error (InvalidIdError.make id (some [("method", .str "getUserById")]) now) ∧
    (errorHandler
        (.app (.api (InvalidIdError.make id (some [("method", .str "getUserById")]) now)))
        requestUrl routeUrl).1.1 = 400 ∧
    ((errorHandler
        (.app (.api (InvalidIdError.make id (some [("method", .str "getUserById")]) now)))
        requestUrl routeUrl).1.2.lookup "success" = some (.bool false)) ∧
    ((errorHandler
        (.app (.api (InvalidIdError.make id (some [("method", .str "getUserById")]) now)))
        requestUrl routeUrl).1.2.lookup "error" =
      some (.str ("Invalid ID format: " ++ id))) ∧
    ((errorHandler
        (.app (.api (InvalidIdError.make id (some [("method", .str "getUserById")]) now)))
        requestUrl routeUrl).1.2.lookup "code" = some (.str "INVALID_ID_FORMAT")) := by
  refine ⟨?_, rfl, ?_, ?_, ?_⟩
  · simp [UserService.getUserById, hid]
  all_goals
    simp [errorHandler, ApiError.toClientResponse, InvalidIdError.make, ApiError.make,
      List.lookup]

/-- Witness for C7 at the concrete identifier of the scenario. -/
theorem getUserById_invalid_id_witness :
    ObjectId.isValid "not-a-valid-id" = false ∧
    (UserService.getUserById (fun _ => (none : Option Unit)) "not-a-valid-id" 3 =
      .error (InvalidIdError.make "not-a-valid-id"
        (some [("method", .str "getUserById")]) 3) ∧
    (errorHandler
        (.app (.api (InvalidIdError.make "not-a-valid-id"
          (some [("method", .str "getUserById")]) 3)))
        "/api/users/not-a-valid-id" none).1.1 = 400 ∧
    ((errorHandler
        (.app (.api (InvalidIdError.make "not-a-valid-id"
          (some [("method", .str "getUserById")]) 3)))
        "/api/users/not-a-valid-id" none).1.2.lookup "success" = some (.bool false)) ∧
    ((errorHandler
        (.app (.api (InvalidIdError.make "not-a-valid-id"
          (some [("method", .str "getUserById")]) 3)))
        "/api/users/not-a-valid-id" none).1.2.lookup "error" =
      some (.str ("Invalid ID format: " ++ "not-a-valid-id"))) ∧
    ((errorHandler
        (.app (.api (InvalidIdError.make "not-a-valid-id"
          (some [("method", .str "getUserById")]) 3)))
        "/api/users/not-a-valid-id" none).1.2.lookup "code" =
      some (.str "INVALID_ID_FORMAT"))) :=
  ⟨by decide,
   getUserById_invalid_id Unit (fun _ => none) "not-a-valid-id" 3
     "/api/users/not-a-valid-id" none (by decide)⟩

/-!
Idempotence of the sanitizer.  Inputs free of cycles (and of reference
sharing) are finite trees of JavaScript values; a tree is injected into a
heap by allocating one fresh address per object node in preorder.  The
output of a sanitizer pass is re-injected the same way on top of the first
heap, and the second pass is shown to reproduce the first output exactly on
inputs free of sensitive keys, logger shapes and framework shapes.
-/

mutual
/-- A cycle-free, unshared JavaScript value: a primitive or an object or
array node with its ordered string-keyed fields. -/
inductive Tree where
  | prim (p : JSPrim)
  | node (isArray : Bool) (fields : TreeFields)
/-- The ordered fields of a tree node. -/
inductive TreeFields where
  | nil
  | cons (k : String) (t : Tree) (rest : TreeFields)
end

/-- Lookup of the first field with the given key, mirroring property access
on the underlying object. -/
def fieldsLookup : TreeFields → String → Option Tree
  | .nil, _ => none
  | .cons k1 t rest, key => if key == k1 then some t else fieldsLookup rest key

/-- Truthiness of the value denoted by a tree (object nodes are always
truthy). -/
def treeTruthy : Tree → Bool
  | .prim p => truthy (.prim p)
  | .node _ _ => true

/-- Truthiness of a field read on a tree node. -/
def fieldsTruthy (fs : TreeFields) (key : String) : Bool :=
  match fieldsLookup fs key with
  | some t => treeTruthy t
  | none => false

/-- Whether a field of a tree node holds a function. -/
def fieldsFn (fs : TreeFields) (key : String) : Bool :=
  match fieldsLookup fs key with
  | some (.prim .fn) => true
  | _ => false

/-- Framework shape of a tree node (truthy raw, log or request field). -/
def fastifyFieldsT (fs : TreeFields) : Bool :=
  fieldsTruthy fs "raw" || fieldsTruthy fs "log" || fieldsTruthy fs "request"

/-- Logger shape of a tree node (child and info fields holding
functions). -/
def loggerFieldsT (fs : TreeFields) : Bool :=
  fieldsFn fs "child" && fieldsFn fs "info"

/-- Whether a tree denotes an object (typeof object and not null). -/
def isObjectTree : Tree → Bool
  | .node _ _ => true
  | .prim _ => false

/-- Whether a tree denotes an array. -/
def isArrayTree : Tree → Bool
  | .node b _ => b
  | .prim _ => false

mutual
/-- A tree is clean when no node is framework- or logger-shaped and no field
key is sensitive: the hypotheses of the idempotence claim. -/
def cleanTree : Tree → Bool
  | .prim _ => true
  | .node _ fs => !fastifyFieldsT fs && !loggerFieldsT fs && cleanFields fs
/-- Cleanliness of a field list. -/
def cleanFields : TreeFields → Bool
  | .nil => true
  | .cons k t rest => !isSensitiveKey k && cleanTree t && cleanFields rest
end

mutual
/-- Number of object nodes of a tree: the number of heap objects its
injection allocates. -/
def sizeTree : Tree → Nat
  | .prim _ => 0
  | .node _ fs => 1 + sizeFields fs
/-- Number of object nodes below a field list. -/
def sizeFields : TreeFields → Nat
  | .nil => 0
  | .cons _ t rest => sizeTree t + sizeFields rest
end

mutual
/-- Injection of a tree into a heap starting at the given fresh address:
returns the value denoting the tree, the allocated objects (the node itself
at the first address, its fields after it, in preorder) and the next fresh
address. -/
def injectTree : Tree → Nat → JSVal × Heap × Nat
  | .prim p, next => (.prim p, [], next)
  | .node b fs, next =>
    let r := injectFields fs (next + 1)
    (.ref next, (next, ⟨b, r.1⟩) :: r.2.1, r.2.2)
/-- Injection of a field list: the injected field values, the allocated
objects and the next fresh address. -/
def injectFields : TreeFields → Nat → List (String × JSVal) × Heap × Nat
  | .nil, next => ([], [], next)
  | .cons k t rest, next =>
    let rt := injectTree t next
    let rr := injectFields rest rt.2.2
    ((k, rt.1) :: rr.1, rt.2.1 ++ rr.2.1, rr.2.2)
end

/-- The value denoting a tree injected at the given base address. -/
def injVal : Tree → Nat → JSVal
  | .prim p, _ => .prim p
  | .node _ _, next => .ref next

/-- Injection of an argument list, threading the fresh-address counter. -/
def injectArgs : List Tree → Nat → List JSVal × Heap × Nat
  | [], next => ([], [], next)
  | t :: rest, next =>
    let rt := injectTree t next
    let rr := injectArgs rest rt.2.2
    (rt.1 :: rr.1, rt.2.1 ++ rr.2.1, rr.2.2)

/-- The headers copy of an injected field list, as produced by
sanitizeHeaders: every value copied verbatim (by reference), sensitive keys
redacted. -/
def headersFields : TreeFields → Nat → List (String × SVal)
  | .nil, _ => []
  | .cons k t rest, next =>
    (k, if isSensitiveKey k then SVal.pass (.prim (.str REDACTED))
        else SVal.pass (injVal t next)) ::
      headersFields rest (injectTree t next).2.2

/-- The headers copy of an injected object node. -/
def headersOut : Tree → Nat → SVal
  | .node _ fs, next => .sobj (headersFields fs (next + 1))
  | .prim _, _ => .sobj []

mutual
/-- The output of the first sanitizer pass on a tree injected at the given
base address (established below for clean trees): primitives pass through
and a node becomes a fresh object from its sanitized fields. -/
def sanTree : Tree → Nat → SVal
  | .prim p, _ => .pass (.prim p)
  | .node _ fs, next => .sobj (sanFields fs (next + 1))
/-- The sanitized entries of an injected field list; each entry mirrors the
branch order of the key loop on the injected value: redaction, headers copy,
recursion into plain objects, reference passthrough. -/
def sanFields : TreeFields → Nat → List (String × SVal)
  | .nil, _ => []
  | .cons k t rest, next =>
    (k, if isSensitiveKey k then .pass (.prim (.str REDACTED))
        else if k == "headers" && isObjectTree t then headersOut t next
        else if isObjectTree t && !isArrayTree t then sanTree t next
        else .pass (injVal t next)) :: sanFields rest (injectTree t next).2.2
end

/-- The sanitized value of one entry (the head value produced by
sanFields). -/
def sanEntryOut (k : String) (t : Tree) (next : Nat) : SVal :=
  if isSensitiveKey k then .pass (.prim (.str REDACTED))
  else if k == "headers" && isObjectTree t then headersOut t next
  else if isObjectTree t && !isArrayTree t then sanTree t next
  else .pass (injVal t next)

theorem sanFields_cons (k : String) (t : Tree) (rest : TreeFields) (next : Nat) :
    sanFields (.cons k t rest) next =
      (k, sanEntryOut k t next) :: sanFields rest (injectTree t next).2.2 := rfl

mutual
/-- The addresses the first pass adds to the visited set on a tree injected
at the given base. -/
def extraTree : Tree → Nat → Finset Nat
  | .prim _, _ => ∅
  | .node _ fs, next => insert next (extraFields fs (next + 1))
/-- The addresses added while traversing an injected field list; only the
recursive branch of an entry visits anything. -/
def extraFields : TreeFields → Nat → Finset Nat
  | .nil, _ => ∅
  | .cons k t rest, next =>
    (if isSensitiveKey k then ∅
     else if k == "headers" && isObjectTree t then ∅
     else if isObjectTree t && !isArrayTree t then extraTree t next
     else ∅) ∪ extraFields rest (injectTree t next).2.2
end

/-- The addresses added by one entry of the key loop. -/
def extraEntry (k : String) (t : Tree) (next : Nat) : Finset Nat :=
  if isSensitiveKey k then ∅
  else if k == "headers" && isObjectTree t then ∅
  else if isObjectTree t && !isArrayTree t then extraTree t next
  else ∅

theorem extraFields_cons (k : String) (t : Tree) (rest : TreeFields) (next : Nat) :
    extraFields (.cons k t rest) next =
      extraEntry k t next ∪ extraFields rest (injectTree t next).2.2 := rfl

mutual
/-- Number of fresh objects of a sanitizer output (its re-injection
allocates exactly this many addresses). -/
def sizeS : SVal → Nat
  | .pass _ => 0
  | .sobj fs => 1 + sizeSF fs
/-- Number of fresh objects below output fields. -/
def sizeSF : List (String × SVal) → Nat
  | [] => 0
  | (_, s) :: rest => sizeS s + sizeSF rest
end

mutual
/-- Re-injection of a sanitizer output into a heap starting at the given
fresh address: passed-through values stay as they are, fresh objects are
allocated in preorder as plain (non-array) objects. -/
def reinjectS : SVal → Nat → JSVal × Heap × Nat
  | .pass v, next => (v, [], next)
  | .sobj fs, next =>
    let r := reinjectFieldsS fs (next + 1)
    (.ref next, (next, ⟨false, r.1⟩) :: r.2.1, r.2.2)
/-- Re-injection of output fields. -/
def reinjectFieldsS : List (String × SVal) → Nat → List (String × JSVal) × Heap × Nat
  | [], next => ([], [], next)
  | (k, s) :: rest, next =>
    let rs := reinjectS s next
    let rr := reinjectFieldsS rest rs.2.2
    ((k, rs.1) :: rr.1, rs.2.1 ++ rr.2.1, rr.2.2)
end

/-- Re-injection of the whole output list, threading the counter. -/
def reinjectArgs : List SVal → Nat → List JSVal × Heap × Nat
  | [], next => ([], [], next)
  | s :: rest, next =>
    let rs := reinjectS s next
    let rr := reinjectArgs rest rs.2.2
    (rs.1 :: rr.1, rs.2.1 ++ rr.2.1, rr.2.2)

/-- The expected sanitizer output on an injected argument list. -/
def sanArgs : List Tree → Nat → List SVal
  | [], _ => []
  | t :: rest, next => sanTree t next :: sanArgs rest (injectTree t next).2.2

mutual
/-- The addresses the second pass adds to the visited set on the
re-injection (at base m) of the first-pass output of a tree injected at the
given base. -/
def extra2Tree : Tree → Nat → Nat → Finset Nat
  | .prim _, _, _ => ∅
  | .node _ fs, next, m => insert m (extra2Fields fs (next + 1) (m + 1))
/-- The second-pass additions while traversing re-injected output
fields. -/
def extra2Fields : TreeFields → Nat → Nat → Finset Nat
  | .nil, _, _ => ∅
  | .cons k t rest, next, m =>
    (if isSensitiveKey k then ∅
     else if k == "headers" && isObjectTree t then ∅
     else if isObjectTree t && !isArrayTree t then extra2Tree t next m
     else ∅) ∪
      extra2Fields rest (injectTree t next).2.2
        (reinjectS (sanEntryOut k t next) m).2.2
end

/-- The second-pass additions of one entry. -/
def extra2Entry (k : String) (t : Tree) (next m : Nat) : Finset Nat :=
  if isSensitiveKey k then ∅
  else if k == "headers" && isObjectTree t then ∅
  else if isObjectTree t && !isArrayTree t then extra2Tree t next m
  else ∅

theorem extra2Fields_cons (k : String) (t : Tree) (rest : TreeFields) (next m : Nat) :
    extra2Fields (.cons k t rest) next m =
      extra2Entry k t next m ∪
        extra2Fields rest (injectTree t next).2.2
          (reinjectS (sanEntryOut k t next) m).2.2 := rfl

/-- Ownership of a heap fragment by a heap: every allocated object of the
fragment is found unchanged by lookup in the heap. -/
def subHeap (part h : Heap) : Prop :=
  ∀ p ∈ part, lookupObj h p.1 = some p.2

theorem lookupObj_append_left {h1 h2 : Heap} {a : Nat} {o : HeapObj}
    (hl : lookupObj h1 a = some o) : lookupObj (h1 ++ h2) a = some o := by
  induction h1 with
  | nil => simp [lookupObj, List.lookup] at hl
  | cons q t ih =>
    obtain ⟨b, o1⟩ := q
    simp only [lookupObj, List.cons_append, List.lookup] at hl ⊢
    split at hl
    · simpa using hl
    · simpa using ih hl

theorem lookupObj_append_right {h1 h2 : Heap} {a : Nat}
    (hl : lookupObj h1 a = none) : lookupObj (h1 ++ h2) a = lookupObj h2 a := by
  induction h1 with
  | nil => rfl
  | cons q t ih =>
    obtain ⟨b, o1⟩ := q
    simp only [lookupObj, List.cons_append, List.lookup] at hl ⊢
    split at hl
    · exact absurd hl (by simp)
    · simpa using ih hl

theorem lookupObj_eq_none {h : Heap} {a : Nat} (hk : ∀ p ∈ h, p.1 ≠ a) :
    lookupObj h a = none := by
  induction h with
  | nil => rfl
  | cons q t ih =>
    obtain ⟨b, o1⟩ := q
    simp only [lookupObj, List.lookup]
    have hb : (a == b) = false := by
      have := hk (b, o1) (by simp)
      simp only [ne_eq] at this
      simp [beq_iff_eq]
      omega
    rw [hb]
    exact ih fun p hp => hk p (by simp [hp])

theorem lookupObj_of_mem_of_nodup {h : Heap} (hnd : (h.map Prod.fst).Nodup)
    {p : Nat × HeapObj} (hp : p ∈ h) : lookupObj h p.1 = some p.2 := by
  induction h with
  | nil => simp at hp
  | cons q t ih =>
    obtain ⟨b, o1⟩ := q
    simp only [List.map_cons, List.nodup_cons] at hnd
    rcases List.mem_cons.mp hp with hp | hp
    · subst hp
      simp [lookupObj, List.lookup]
    · have hne : p.1 ≠ b := by
        intro he
        exact hnd.1 (he ▸ List.mem_map_of_mem Prod.fst hp)
      simp only [lookupObj, List.lookup]
      rw [show (p.1 == b) = false by simpa using hne]
      exact ih hnd.2 hp

theorem subHeap_append_ext {part h1 h2 : Heap} (hs : subHeap part h1) :
    subHeap part (h1 ++ h2) :=
  fun p hp => lookupObj_append_left (hs p hp)

theorem subHeap_of_append {x y h : Heap} (hs : subHeap (x ++ y) h) :
    subHeap x h ∧ subHeap y h :=
  ⟨fun p hp => hs p (List.mem_append_left _ hp),
   fun p hp => hs p (List.mem_append_right _ hp)⟩

theorem subHeap_of_cons {q : Nat × HeapObj} {part h : Heap}
    (hs : subHeap (q :: part) h) :
    lookupObj h q.1 = some q.2 ∧ subHeap part h :=
  ⟨hs q (by simp), fun p hp => hs p (by simp [hp])⟩

theorem injectTree_fst (t : Tree) (next : Nat) :
    (injectTree t next).1 = injVal t next := by
  cases t <;> rfl

mutual
theorem injectTree_le (t : Tree) (next : Nat) : next ≤ (injectTree t next).2.2 := by
  cases t with
  | prim p => exact Nat.le_refl next
  | node b fs =>
    simp only [injectTree]
    exact Nat.le_trans (Nat.le_succ next) (injectFields_le fs (next + 1))
theorem injectFields_le (fs : TreeFields) (next : Nat) :
    next ≤ (injectFields fs next).2.2 := by
  cases fs with
  | nil => exact Nat.le_refl next
  | cons k t rest =>
    simp only [injectFields]
    exact Nat.le_trans (injectTree_le t next) (injectFields_le rest _)
end

mutual
theorem injectTree_bounds (t : Tree) (next : Nat) :
    ∀ p ∈ (injectTree t next).2.1, next ≤ p.1 ∧ p.1 < (injectTree t next).2.2 := by
  cases t with
  | prim p => intro p hp; simp [injectTree] at hp
  | node b fs =>
    intro p hp
    simp only [injectTree, List.mem_cons] at hp ⊢
    rcases hp with hp | hp
    · subst hp
      exact ⟨Nat.le_refl next,
        Nat.lt_of_lt_of_le (Nat.lt_succ_self next) (injectFields_le fs (next + 1))⟩
    · have := injectFields_bounds fs (next + 1) p hp
      exact ⟨Nat.le_trans (Nat.le_succ next) this.1, this.2⟩
theorem injectFields_bounds (fs : TreeFields) (next : Nat) :
    ∀ p ∈ (injectFields fs next).2.1, next ≤ p.1 ∧ p.1 < (injectFields fs next).2.2 := by
  cases fs with
  | nil => intro p hp; simp [injectFields] at hp
  | cons k t rest =>
    intro p hp
    simp only [injectFields, List.mem_append] at hp ⊢
    rcases hp with hp | hp
    · have := injectTree_bounds t next p hp
      exact ⟨this.1, Nat.lt_of_lt_of_le this.2 (injectFields_le rest _)⟩
    · have := injectFields_bounds rest _ p hp
      exact ⟨Nat.le_trans (injectTree_le t next) this.1, this.2⟩
end

mutual
theorem injectTree_nodup (t : Tree) (next : Nat) :
    ((injectTree t next).2.1.map Prod.fst).Nodup := by
  cases t with
  | prim p => simp [injectTree]
  | node b fs =>
    simp only [injectTree, List.map_cons, List.nodup_cons]
    refine ⟨?_, injectFields_nodup fs (next + 1)⟩
    intro hmem
    obtain ⟨p, hp, he⟩ := List.mem_map.mp hmem
    have := (injectFields_bounds fs (next + 1) p hp).1
    omega
theorem injectFields_nodup (fs : TreeFields) (next : Nat) :
    ((injectFields fs next).2.1.map Prod.fst).Nodup := by
  cases fs with
  | nil => simp [injectFields]
  | cons k t rest =>
    simp only [injectFields, List.map_append]
    refine List.Nodup.append (injectTree_nodup t next) (injectFields_nodup rest _) ?_
    intro a ha hb
    obtain ⟨p, hp, he⟩ := List.mem_map.mp ha
    obtain ⟨q, hq, he2⟩ := List.mem_map.mp hb
    have h1 := (injectTree_bounds t next p hp).2
    have h2 := (injectFields_bounds rest _ q hq).1
    omega
end

mutual
theorem injectTree_length (t : Tree) (next : Nat) :
    (injectTree t next).2.1.length = sizeTree t := by
  cases t with
  | prim p => rfl
  | node b fs =>
    simp only [injectTree, List.length_cons, sizeTree]
    rw [injectFields_length fs (next + 1)]
    omega
theorem injectFields_length (fs : TreeFields) (next : Nat) :
    (injectFields fs next).2.1.length = sizeFields fs := by
  cases fs with
  | nil => rfl
  | cons k t rest =>
    simp only [injectFields, List.length_append, sizeFields]
    rw [injectTree_length t next, injectFields_length rest _]
end

theorem injectArgs_le (ts : List Tree) (next : Nat) :
    next ≤ (injectArgs ts next).2.2 := by
  induction ts generalizing next with
  | nil => exact Nat.le_refl next
  | cons t rest ih =>
    simp only [injectArgs]
    exact Nat.le_trans (injectTree_le t next) (ih _)

theorem injectArgs_bounds (ts : List Tree) (next : Nat) :
    ∀ p ∈ (injectArgs ts next).2.1, next ≤ p.1 ∧ p.1 < (injectArgs ts next).2.2 := by
  induction ts generalizing next with
  | nil => intro p hp; simp [injectArgs] at hp
  | cons t rest ih =>
    intro p hp
    simp only [injectArgs, List.mem_append] at hp ⊢
    rcases hp with hp | hp
    · have := injectTree_bounds t next p hp
      exact ⟨this.1, Nat.lt_of_lt_of_le this.2 (injectArgs_le rest _)⟩
    · have := ih _ p hp
      exact ⟨Nat.le_trans (injectTree_le t next) this.1, this.2⟩

theorem injectArgs_nodup (ts : List Tree) (next : Nat) :
    ((injectArgs ts next).2.1.map Prod.fst).Nodup := by
  induction ts generalizing next with
  | nil => simp [injectArgs]
  | cons t rest ih =>
    simp only [injectArgs, List.map_append]
    refine List.Nodup.append (injectTree_nodup t next) (ih _) ?_
    intro a ha hb
    obtain ⟨p, hp, he⟩ := List.mem_map.mp ha
    obtain ⟨q, hq, he2⟩ := List.mem_map.mp hb
    have h1 := (injectTree_bounds t next p hp).2
    have h2 := (injectArgs_bounds rest _ q hq).1
    omega

theorem sizeTree_le_injectArgs (ts : List Tree) (next : Nat) :
    ∀ t ∈ ts, sizeTree t ≤ (injectArgs ts next).2.1.length := by
  induction ts generalizing next with
  | nil => intro t ht; simp at ht
  | cons t1 rest ih =>
    intro t ht
    simp only [injectArgs, List.length_append]
    rcases List.mem_cons.mp ht with ht | ht
    · subst ht
      rw [injectTree_length]
      omega
    · exact Nat.le_trans (ih ((injectTree t1 next).2.2) t ht) (by omega)

mutual
theorem reinjectS_le (s : SVal) (next : Nat) : next ≤ (reinjectS s next).2.2 := by
  cases s with
  | pass v => exact Nat.le_refl next
  | sobj fs =>
    simp only [reinjectS]
    exact Nat.le_trans (Nat.le_succ next) (reinjectFieldsS_le fs (next + 1))
theorem reinjectFieldsS_le (fs : List (String × SVal)) (next : Nat) :
    next ≤ (reinjectFieldsS fs next).2.2 := by
  cases fs with
  | nil => exact Nat.le_refl next
  | cons kv rest =>
    obtain ⟨k, s⟩ := kv
    simp only [reinjectFieldsS]
    exact Nat.le_trans (reinjectS_le s next) (reinjectFieldsS_le rest _)
end

mutual
theorem reinjectS_bounds (s : SVal) (next : Nat) :
    ∀ p ∈ (reinjectS s next).2.1, next ≤ p.1 ∧ p.1 < (reinjectS s next).2.2 := by
  cases s with
  | pass v => intro p hp; simp [reinjectS] at hp
  | sobj fs =>
    intro p hp
    simp only [reinjectS, List.mem_cons] at hp ⊢
    rcases hp with hp | hp
    · subst hp
      exact ⟨Nat.le_refl next,
        Nat.lt_of_lt_of_le (Nat.lt_succ_self next) (reinjectFieldsS_le fs (next + 1))⟩
    · have := reinjectFieldsS_bounds fs (next + 1) p hp
      exact ⟨Nat.le_trans (Nat.le_succ next) this.1, this.2⟩
theorem reinjectFieldsS_bounds (fs : List (String × SVal)) (next : Nat) :
    ∀ p ∈ (reinjectFieldsS fs next).2.1,
      next ≤ p.1 ∧ p.1 < (reinjectFieldsS fs next).2.2 := by
  cases fs with
  | nil => intro p hp; simp [reinjectFieldsS] at hp
  | cons kv rest =>
    obtain ⟨k, s⟩ := kv
    intro p hp
    simp only [reinjectFieldsS, List.mem_append] at hp ⊢
    rcases hp with hp | hp
    · have := reinjectS_bounds s next p hp
      exact ⟨this.1, Nat.lt_of_lt_of_le this.2 (reinjectFieldsS_le rest _)⟩
    · have := reinjectFieldsS_bounds rest _ p hp
      exact ⟨Nat.le_trans (reinjectS_le s next) this.1, this.2⟩
end

mutual
theorem reinjectS_nodup (s : SVal) (next : Nat) :
    ((reinjectS s next).2.1.map Prod.fst).Nodup := by
  cases s with
  | pass v => simp [reinjectS]
  | sobj fs =>
    simp only [reinjectS, List.map_cons, List.nodup_cons]
    refine ⟨?_, reinjectFieldsS_nodup fs (next + 1)⟩
    intro hmem
    obtain ⟨p, hp, he⟩ := List.mem_map.mp hmem
    have := (reinjectFieldsS_bounds fs (next + 1) p hp).1
    omega
theorem reinjectFieldsS_nodup (fs : List (String × SVal)) (next : Nat) :
    ((reinjectFieldsS fs next).2.1.map Prod.fst).Nodup := by
  cases fs with
  | nil => simp [reinjectFieldsS]
  | cons kv rest =>
    obtain ⟨k, s⟩ := kv
    simp only [reinjectFieldsS, List.map_append]
    refine List.Nodup.append (reinjectS_nodup s next) (reinjectFieldsS_nodup rest _) ?_
    intro a ha hb
    obtain ⟨p, hp, he⟩ := List.mem_map.mp ha
    obtain ⟨q, hq, he2⟩ := List.mem_map.mp hb
    have h1 := (reinjectS_bounds s next p hp).2
    have h2 := (reinjectFieldsS_bounds rest _ q hq).1
    omega
end

mutual
theorem reinjectS_length (s : SVal) (next : Nat) :
    (reinjectS s next).2.1.length = sizeS s := by
  cases s with
  | pass v => rfl
  | sobj fs =>
    simp only [reinjectS, List.length_cons, sizeS]
    rw [reinjectFieldsS_length fs (next + 1)]
    omega
theorem reinjectFieldsS_length (fs : List (String × SVal)) (next : Nat) :
    (reinjectFieldsS fs next).2.1.length = sizeSF fs := by
  cases fs with
  | nil => rfl
  | cons kv rest =>
    obtain ⟨k, s⟩ := kv
    simp only [reinjectFieldsS, List.length_append, sizeSF]
    rw [reinjectS_length s next, reinjectFieldsS_length rest _]
end

theorem reinjectArgs_le (ss : List SVal) (next : Nat) :
    next ≤ (reinjectArgs ss next).2.2 := by
  induction ss generalizing next with
  | nil => exact Nat.le_refl next
  | cons s rest ih =>
    simp only [reinjectArgs]
    exact Nat.le_trans (reinjectS_le s next) (ih _)

theorem reinjectArgs_bounds (ss : List SVal) (next : Nat) :
    ∀ p ∈ (reinjectArgs ss next).2.1,
      next ≤ p.1 ∧ p.1 < (reinjectArgs ss next).2.2 := by
  induction ss generalizing next with
  | nil => intro p hp; simp [reinjectArgs] at hp
  | cons s rest ih =>
    intro p hp
    simp only [reinjectArgs, List.mem_append] at hp ⊢
    rcases hp with hp | hp
    · have := reinjectS_bounds s next p hp
      exact ⟨this.1, Nat.lt_of_lt_of_le this.2 (reinjectArgs_le rest _)⟩
    · have := ih _ p hp
      exact ⟨Nat.le_trans (reinjectS_le s next) this.1, this.2⟩

theorem reinjectArgs_nodup (ss : List SVal) (next : Nat) :
    ((reinjectArgs ss next).2.1.map Prod.fst).Nodup := by
  induction ss generalizing next with
  | nil => simp [reinjectArgs]
  | cons s rest ih =>
    simp only [reinjectArgs, List.map_append]
    refine List.Nodup.append (reinjectS_nodup s next) (ih _) ?_
    intro a ha hb
    obtain ⟨p, hp, he⟩ := List.mem_map.mp ha
    obtain ⟨q, hq, he2⟩ := List.mem_map.mp hb
    have h1 := (reinjectS_bounds s next p hp).2
    have h2 := (reinjectArgs_bounds rest _ q hq).1
    omega

theorem sizeS_le_reinjectArgs (ss : List SVal) (next : Nat) :
    ∀ s ∈ ss, sizeS s ≤ (reinjectArgs ss next).2.1.length := by
  induction ss generalizing next with
  | nil => intro s hs; simp at hs
  | cons s1 rest ih =>
    intro s hs
    simp only [reinjectArgs, List.length_append]
    rcases List.mem_cons.mp hs with hs | hs
    · subst hs
      rw [reinjectS_length]
      omega
    · exact Nat.le_trans (ih ((reinjectS s1 next).2.2) s hs) (by omega)

mutual
theorem extraTree_bounds (t : Tree) (next : Nat) :
    ∀ a ∈ extraTree t next, next ≤ a ∧ a < (injectTree t next).2.2 := by
  cases t with
  | prim p => intro a ha; simp [extraTree] at ha
  | node b fs =>
    intro a ha
    simp only [extraTree, Finset.mem_insert] at ha
    simp only [injectTree]
    rcases ha with ha | ha
    · have hle := injectFields_le fs (next + 1)
      omega
    · have := extraFields_bounds fs (next + 1) a ha
      exact ⟨Nat.le_trans (Nat.le_succ next) this.1, this.2⟩
theorem extraFields_bounds (fs : TreeFields) (next : Nat) :
    ∀ a ∈ extraFields fs next, next ≤ a ∧ a < (injectFields fs next).2.2 := by
  cases fs with
  | nil => intro a ha; simp [extraFields] at ha
  | cons k t rest =>
    intro a ha
    rw [extraFields_cons] at ha
    simp only [Finset.mem_union] at ha
    simp only [injectFields]
    rcases ha with ha | ha
    · have hsub : a ∈ extraTree t next := by
        simp only [extraEntry] at ha
        split at ha
        · simp at ha
        · split at ha
          · simp at ha
          · split at ha
            · exact ha
            · simp at ha
      have := extraTree_bounds t next a hsub
      exact ⟨this.1, Nat.lt_of_lt_of_le this.2 (injectFields_le rest _)⟩
    · have := extraFields_bounds rest _ a ha
      exact ⟨Nat.le_trans (injectTree_le t next) this.1, this.2⟩
end

mutual
theorem extra2Tree_bounds (t : Tree) (next m : Nat) :
    ∀ a ∈ extra2Tree t next m, m ≤ a ∧ a < (reinjectS (sanTree t next) m).2.2 := by
  cases t with
  | prim p => intro a ha; simp [extra2Tree] at ha
  | node b fs =>
    intro a ha
    simp only [extra2Tree, Finset.mem_insert] at ha
    simp only [sanTree, reinjectS]
    rcases ha with ha | ha
    · have hle := reinjectFieldsS_le (sanFields fs (next + 1)) (m + 1)
      omega
    · have := extra2Fields_bounds fs (next + 1) (m + 1) a ha
      exact ⟨Nat.le_trans (Nat.le_succ m) this.1, this.2⟩
theorem extra2Fields_bounds (fs : TreeFields) (next m : Nat) :
    ∀ a ∈ extra2Fields fs next m,
      m ≤ a ∧ a < (reinjectFieldsS (sanFields fs next) m).2.2 := by
  cases fs with
  | nil => intro a ha; simp [extra2Fields] at ha
  | cons k t rest =>
    intro a ha
    rw [extra2Fields_cons] at ha
    rw [sanFields_cons]
    simp only [Finset.mem_union] at ha
    simp only [reinjectFieldsS]
    rcases ha with ha | ha
    · simp only [extra2Entry] at ha
      by_cases hsens : isSensitiveKey k = true
      · simp [hsens] at ha
      · by_cases hhead : (k == "headers" && isObjectTree t) = true
        · simp [hsens, hhead] at ha
        · by_cases hobj : (isObjectTree t && !isArrayTree t) = true
          · rw [if_neg hsens, if_neg hhead, if_pos hobj] at ha
            have hse : sanEntryOut k t next = sanTree t next := by
              rw [sanEntryOut, if_neg hsens, if_neg hhead, if_pos hobj]
            have hb := extra2Tree_bounds t next m a ha
            refine ⟨hb.1, Nat.lt_of_lt_of_le ?_ (reinjectFieldsS_le _ _)⟩
            rw [hse]
            exact hb.2
          · simp [hsens, hhead, hobj] at ha
    · have hb := extra2Fields_bounds rest (injectTree t next).2.2
        (reinjectS (sanEntryOut k t next) m).2.2 a ha
      exact ⟨Nat.le_trans (reinjectS_le _ m) hb.1, hb.2⟩
end

/-- Whether a value is a function. -/
def isFnVal : JSVal → Bool
  | .prim .fn => true
  | _ => false

/-- Whether a tree denotes a function. -/
def isFnTree : Tree → Bool
  | .prim .fn => true
  | _ => false

theorem truthy_injVal (t : Tree) (m : Nat) : truthy (injVal t m) = treeTruthy t := by
  cases t <;> rfl

theorem isObjectVal_injVal (t : Tree) (m : Nat) :
    isObjectVal (injVal t m) = isObjectTree t := by
  cases t <;> rfl

theorem isFnVal_injVal (t : Tree) (m : Nat) : isFnVal (injVal t m) = isFnTree t := by
  cases t with
  | prim p => cases p <;> rfl
  | node b fs => rfl

theorem isFnField_eq_isFnVal (o : HeapObj) (key : String) :
    isFnField o key = (match getField o key with
      | some v => isFnVal v
      | none => false) := by
  rw [isFnField]
  match getField o key with
  | some (.prim (.str s)) => rfl
  | some (.prim (.num n)) => rfl
  | some (.prim (.bool b)) => rfl
  | some (.prim .null) => rfl
  | some (.prim .undef) => rfl
  | some (.prim .fn) => rfl
  | some (.ref a) => rfl
  | none => rfl

theorem fieldsFn_eq_isFnTree (fs : TreeFields) (key : String) :
    fieldsFn fs key = (match fieldsLookup fs key with
      | some t => isFnTree t
      | none => false) := by
  rw [fieldsFn]
  match fieldsLookup fs key with
  | some (.prim (.str s)) => rfl
  | some (.prim (.num n)) => rfl
  | some (.prim (.bool b)) => rfl
  | some (.prim .null) => rfl
  | some (.prim .undef) => rfl
  | some (.prim .fn) => rfl
  | some (.node b g) => rfl
  | none => rfl

theorem fieldTruthy_injectFields (fs : TreeFields) (m : Nat) (b : Bool) (key : String) :
    fieldTruthy ⟨b, (injectFields fs m).1⟩ key = fieldsTruthy fs key := by
  cases fs with
  | nil => rfl
  | cons k t rest =>
    simp only [injectFields, fieldTruthy, getField, List.lookup, fieldsTruthy,
      fieldsLookup]
    by_cases hk : (key == k) = true
    · rw [hk]
      simp [injectTree_fst, truthy_injVal]
    · rw [show (key == k) = false by simpa using hk]
      have := fieldTruthy_injectFields rest (injectTree t m).2.2 b key
      simpa only [fieldTruthy, getField, fieldsTruthy] using this

theorem isFnField_injectFields (fs : TreeFields) (m : Nat) (b : Bool) (key : String) :
    isFnField ⟨b, (injectFields fs m).1⟩ key = fieldsFn fs key := by
  cases fs with
  | nil => rfl
  | cons k t rest =>
    rw [isFnField_eq_isFnVal, fieldsFn_eq_isFnTree]
    simp only [injectFields, getField, List.lookup, fieldsLookup]
    by_cases hk : (key == k) = true
    · rw [hk]
      simp [injectTree_fst, isFnVal_injVal]
    · rw [show (key == k) = false by simpa using hk]
      have := isFnField_injectFields rest (injectTree t m).2.2 b key
      rw [isFnField_eq_isFnVal, fieldsFn_eq_isFnTree] at this
      simpa only [getField] using this

theorem isFastifyObject_injectFields (fs : TreeFields) (m : Nat) (b : Bool) :
    isFastifyObject ⟨b, (injectFields fs m).1⟩ = fastifyFieldsT fs := by
  simp only [isFastifyObject, fastifyFieldsT, fieldTruthy_injectFields]

theorem isLoggerObject_injVal (h : Heap) (t : Tree) (m : Nat)
    (hs : subHeap (injectTree t m).2.1 h) :
    isLoggerObject h (injVal t m) =
      (match t with
       | .prim _ => false
       | .node _ fs => loggerFieldsT fs) := by
  cases t with
  | prim p => rfl
  | node b fs =>
    have hl := (subHeap_of_cons (by simpa only [injectTree] using hs)).1
    simp only [injVal, isLoggerObject, hl, loggerFieldsT, isFnField_injectFields]

theorem isArrayVal_injVal (h : Heap) (t : Tree) (m : Nat)
    (hs : subHeap (injectTree t m).2.1 h) :
    isArrayVal h (injVal t m) = isArrayTree t := by
  cases t with
  | prim p => rfl
  | node b fs =>
    have hl := (subHeap_of_cons (by simpa only [injectTree] using hs)).1
    simp only [injVal, isArrayVal, hl, isArrayTree]

theorem headersFields_map (fs : TreeFields) (m : Nat) :
    ((injectFields fs m).1.map fun kv =>
      (kv.1, if isSensitiveKey kv.1 then SVal.pass (.prim (.str REDACTED))
             else SVal.pass kv.2)) = headersFields fs m := by
  cases fs with
  | nil => rfl
  | cons k t rest =>
    simp only [injectFields, List.map_cons, headersFields, injectTree_fst,
      headersFields_map rest (injectTree t m).2.2]

theorem sanitizeHeaders_injectFields (fs : TreeFields) (m : Nat) (b : Bool) :
    sanitizeHeaders ⟨b, (injectFields fs m).1⟩ = .sobj (headersFields fs m) := by
  simp only [sanitizeHeaders, headersFields_map]

theorem cleanFields_cons {k : String} {t : Tree} {rest : TreeFields}
    (hc : cleanFields (.cons k t rest) = true) :
    isSensitiveKey k = false ∧ cleanTree t = true ∧ cleanFields rest = true := by
  simp only [cleanFields, Bool.and_eq_true, Bool.not_eq_true'] at hc
  exact ⟨hc.1.1, hc.1.2, hc.2⟩

theorem cleanTree_node {b : Bool} {fs : TreeFields}
    (hc : cleanTree (.node b fs) = true) :
    fastifyFieldsT fs = false ∧ loggerFieldsT fs = false ∧ cleanFields fs = true := by
  simp only [cleanTree, Bool.and_eq_true, Bool.not_eq_true'] at hc
  exact ⟨hc.1.1, hc.1.2, hc.2⟩

theorem truthy_reinject_entry (k : String) (t : Tree) (n m : Nat)
    (hks : isSensitiveKey k = false) :
    truthy ((reinjectS (sanEntryOut k t n) m).1) = treeTruthy t := by
  cases t with
  | prim p =>
    simp [sanEntryOut, hks, isObjectTree, reinjectS, injVal, treeTruthy]
  | node b fs =>
    rw [sanEntryOut, if_neg (by simp [hks])]
    by_cases hh : (k == "headers" && isObjectTree (Tree.node b fs)) = true
    · rw [if_pos hh, headersOut]
      rfl
    · rw [if_neg hh]
      by_cases ho : (isObjectTree (Tree.node b fs) && !isArrayTree (Tree.node b fs)) = true
      · rw [if_pos ho, sanTree]
        rfl
      · rw [if_neg ho]
        rfl

theorem isFnVal_reinject_entry (k : String) (t : Tree) (n m : Nat)
    (hks : isSensitiveKey k = false) :
    isFnVal ((reinjectS (sanEntryOut k t n) m).1) = isFnTree t := by
  cases t with
  | prim p =>
    rw [sanEntryOut, if_neg (by simp [hks]), if_neg (by simp [isObjectTree]),
      if_neg (by simp [isObjectTree])]
    simp only [reinjectS, injVal]
    cases p <;> rfl
  | node b fs =>
    rw [sanEntryOut, if_neg (by simp [hks])]
    by_cases hh : (k == "headers" && isObjectTree (Tree.node b fs)) = true
    · rw [if_pos hh, headersOut]
      rfl
    · rw [if_neg hh]
      by_cases ho : (isObjectTree (Tree.node b fs) && !isArrayTree (Tree.node b fs)) = true
      · rw [if_pos ho, sanTree]
        rfl
      · rw [if_neg ho]
        rfl

theorem fieldTruthy_reinjectFields (fs : TreeFields) (n m : Nat) (key : String)
    (hc : cleanFields fs = true) :
    fieldTruthy ⟨false, (reinjectFieldsS (sanFields fs n) m).1⟩ key =
      fieldsTruthy fs key := by
  cases fs with
  | nil => rfl
  | cons k t rest =>
    obtain ⟨hks, hct, hcr⟩ := cleanFields_cons hc
    rw [sanFields_cons]
    simp only [reinjectFieldsS, fieldTruthy, getField, List.lookup,
      fieldsTruthy, fieldsLookup]
    by_cases hk : (key == k) = true
    · rw [hk]
      simp [truthy_reinject_entry k t n m hks]
    · rw [show (key == k) = false by simpa using hk]
      have := fieldTruthy_reinjectFields rest (injectTree t n).2.2
        (reinjectS (sanEntryOut k t n) m).2.2 key hcr
      simpa only [fieldTruthy, getField, fieldsTruthy] using this

theorem isFnField_reinjectFields (fs : TreeFields) (n m : Nat) (key : String)
    (hc : cleanFields fs = true) :
    isFnField ⟨false, (reinjectFieldsS (sanFields fs n) m).1⟩ key =
      fieldsFn fs key := by
  cases fs with
  | nil => rfl
  | cons k t rest =>
    obtain ⟨hks, hct, hcr⟩ := cleanFields_cons hc
    rw [isFnField_eq_isFnVal, fieldsFn_eq_isFnTree, sanFields_cons]
    simp only [reinjectFieldsS, getField, List.lookup, fieldsLookup]
    by_cases hk : (key == k) = true
    · rw [hk]
      simp [isFnVal_reinject_entry k t n m hks]
    · rw [show (key == k) = false by simpa using hk]
      have := isFnField_reinjectFields rest (injectTree t n).2.2
        (reinjectS (sanEntryOut k t n) m).2.2 key hcr
      rw [isFnField_eq_isFnVal, fieldsFn_eq_isFnTree] at this
      simpa only [getField] using this

theorem isFastifyObject_reinjectFields (fs : TreeFields) (n m : Nat)
    (hc : cleanFields fs = true) :
    isFastifyObject ⟨false, (reinjectFieldsS (sanFields fs n) m).1⟩ =
      fastifyFieldsT fs := by
  simp only [isFastifyObject, fastifyFieldsT, fieldTruthy_reinjectFields _ _ _ _ hc]

theorem headersFields_reinject_map (fs : TreeFields) (n m : Nat) :
    ((reinjectFieldsS (headersFields fs n) m).1.map fun kv =>
      (kv.1, if isSensitiveKey kv.1 then SVal.pass (.prim (.str REDACTED))
             else SVal.pass kv.2)) = headersFields fs n := by
  cases fs with
  | nil => rfl
  | cons k t rest =>
    by_cases hks : isSensitiveKey k = true
    · simp only [headersFields, if_pos hks, reinjectFieldsS, reinjectS, List.map_cons,
        headersFields_reinject_map rest (injectTree t n).2.2 m]
    · simp only [headersFields, if_neg hks, reinjectFieldsS, reinjectS, List.map_cons,
        headersFields_reinject_map rest (injectTree t n).2.2 m]

theorem sanitizeHeaders_reinject (fs : TreeFields) (n m : Nat) :
    sanitizeHeaders ⟨false, (reinjectFieldsS (headersFields fs n) m).1⟩ =
      .sobj (headersFields fs n) := by
  simp only [sanitizeHeaders, headersFields_reinject_map]

theorem extraEntry_bounds (k : String) (t : Tree) (next : Nat) :
    ∀ a ∈ extraEntry k t next, next ≤ a ∧ a < (injectTree t next).2.2 := by
  intro a ha
  rw [extraEntry] at ha
  split at ha
  · simp at ha
  · split at ha
    · simp at ha
    · split at ha
      · exact extraTree_bounds t next a ha
      · simp at ha

theorem extra2Entry_bounds (k : String) (t : Tree) (next m : Nat) :
    ∀ a ∈ extra2Entry k t next m,
      m ≤ a ∧ a < (reinjectS (sanEntryOut k t next) m).2.2 := by
  intro a ha
  rw [extra2Entry] at ha
  by_cases hsens : isSensitiveKey k = true
  · rw [if_pos hsens] at ha
    simp at ha
  · rw [if_neg hsens] at ha
    by_cases hhead : (k == "headers" && isObjectTree t) = true
    · rw [if_pos hhead] at ha
      simp at ha
    · rw [if_neg hhead] at ha
      by_cases hobj : (isObjectTree t && !isArrayTree t) = true
      · rw [if_pos hobj] at ha
        have hse : sanEntryOut k t next = sanTree t next := by
          rw [sanEntryOut, if_neg hsens, if_neg hhead, if_pos hobj]
        rw [hse]
        exact extra2Tree_bounds t next m a ha
      · rw [if_neg hobj] at ha
        simp at ha

mutual
/-- First sanitizer pass on the injection of a clean tree: the result is the
structurally computed sanTree and the visited set grows by exactly the
traversed injected addresses, for any heap owning the injected objects, any
visited set below the allocation base, and any fuel above the number of
allocated objects. -/
theorem sanitizeValueFuel_injectTree (t : Tree) (next : Nat) (seen : Finset Nat)
    (fuel : Nat) (h : Heap)
    (hc : cleanTree t = true)
    (hs : subHeap (injectTree t next).2.1 h)
    (hseen : ∀ a ∈ seen, a < next)
    (hfuel : sizeTree t < fuel) :
    sanitizeValueFuel h fuel (injVal t next) seen =
      (sanTree t next, extraTree t next) := by
  cases t with
  | prim p =>
    match fuel, hfuel with
    | f + 1, _ => rfl
  | node b fs =>
    obtain ⟨hfas, hlog, hcf⟩ := cleanTree_node hc
    match fuel, hfuel with
    | f + 1, hfuel =>
      have hnotin : next ∉ seen := fun hmem => absurd (hseen next hmem) (lt_irrefl next)
      have hsplit := subHeap_of_cons (by simpa only [injectTree] using hs)
      have hlk : lookupObj h next = some ⟨b, (injectFields fs (next + 1)).1⟩ := hsplit.1
      have hsf : subHeap (injectFields fs (next + 1)).2.1 h := hsplit.2
      have hfasB : isFastifyObject ⟨b, (injectFields fs (next + 1)).1⟩ = false := by
        rw [isFastifyObject_injectFields]
        exact hfas
      have hseen2 : ∀ a ∈ insert next seen, a < next + 1 := by
        intro a ha
        rcases Finset.mem_insert.mp ha with ha | ha
        · omega
        · have := hseen a ha
          omega
      have hfuel2 : sizeFields fs < f := by
        simp only [sizeTree] at hfuel
        omega
      have hrec := sanitizeFields_injectFields fs (next + 1) (insert next seen) f h
        hcf hsf hseen2 hfuel2
      show sanitizeValueFuel h (f + 1) (.ref next) seen = _
      simp only [sanitizeValueFuel, hnotin, if_neg, hlk, hfasB, Bool.false_eq_true,
        if_false, hrec, sanTree, extraTree]
/-- First sanitizer pass over the injected fields of a clean field list. -/
theorem sanitizeFields_injectFields (fs : TreeFields) (next : Nat) (seen : Finset Nat)
    (fuel : Nat) (h : Heap)
    (hc : cleanFields fs = true)
    (hs : subHeap (injectFields fs next).2.1 h)
    (hseen : ∀ a ∈ seen, a < next)
    (hfuel : sizeFields fs < fuel) :
    sanitizeFields h (fun v s => sanitizeValueFuel h fuel v s)
      (injectFields fs next).1 seen = (sanFields fs next, extraFields fs next) := by
  cases fs with
  | nil => rfl
  | cons k t rest =>
    obtain ⟨hks, hct, hcr⟩ := cleanFields_cons hc
    have hsplit := subHeap_of_append (by simpa only [injectFields] using hs)
    have hst : subHeap (injectTree t next).2.1 h := hsplit.1
    have hsr : subHeap (injectFields rest (injectTree t next).2.2).2.1 h := hsplit.2
    have hnksP : ¬(isSensitiveKey k = true) := by simp [hks]
    have hentry : sanitizeEntry h (fun v s => sanitizeValueFuel h fuel v s) k
        ((injectTree t next).1) seen = (sanEntryOut k t next, extraEntry k t next) := by
      rw [injectTree_fst, sanitizeEntry, sanEntryOut, extraEntry,
        if_neg hnksP, if_neg hnksP, if_neg hnksP,
        isObjectVal_injVal, isArrayVal_injVal h t next hst]
      by_cases hhead : (k == "headers" && isObjectTree t) = true
      · rw [if_pos hhead, if_pos hhead, if_pos hhead]
        cases t with
        | prim p => simp [isObjectTree] at hhead
        | node b2 fs2 =>
          have hlk2 : lookupObj h next = some ⟨b2, (injectFields fs2 (next + 1)).1⟩ :=
            (subHeap_of_cons (by simpa only [injectTree] using hst)).1
          simp only [injVal, sanitizeHeadersVal, hlk2, headersOut,
            sanitizeHeaders_injectFields]
      · rw [if_neg hhead, if_neg hhead, if_neg hhead]
        by_cases hobj : (isObjectTree t && !isArrayTree t) = true
        · rw [if_pos hobj, if_pos hobj, if_pos hobj]
          refine sanitizeValueFuel_injectTree t next seen fuel h hct hst hseen ?_
          have hsz : sizeFields (TreeFields.cons k t rest) =
              sizeTree t + sizeFields rest := rfl
          omega
        · rw [if_neg hobj, if_neg hobj, if_neg hobj]
    have hseen2 : ∀ a ∈ seen ∪ extraEntry k t next, a < (injectTree t next).2.2 := by
      intro a ha
      rcases Finset.mem_union.mp ha with ha | ha
      · have h1 := hseen a ha
        have h2 := injectTree_le t next
        omega
      · exact (extraEntry_bounds k t next a ha).2
    have hfuel2 : sizeFields rest < fuel := by
      simp only [sizeFields] at hfuel
      omega
    have hrest := sanitizeFields_injectFields rest (injectTree t next).2.2
      (seen ∪ extraEntry k t next) fuel h hcr hsr hseen2 hfuel2
    simp only [injectFields, sanitizeFields, hentry, hrest, sanFields_cons,
      extraFields_cons]
end

theorem isObjectVal_reinject_entry (k : String) (t : Tree) (n m : Nat)
    (hks : isSensitiveKey k = false) :
    isObjectVal ((reinjectS (sanEntryOut k t n) m).1) = isObjectTree t := by
  cases t with
  | prim p =>
    rw [sanEntryOut, if_neg (by simp [hks]), if_neg (by simp [isObjectTree]),
      if_neg (by simp [isObjectTree])]
    rfl
  | node b fs =>
    rw [sanEntryOut, if_neg (by simp [hks])]
    by_cases hh : (k == "headers" && isObjectTree (Tree.node b fs)) = true
    · rw [if_pos hh, headersOut]
      rfl
    · rw [if_neg hh]
      by_cases ho : (isObjectTree (Tree.node b fs) && !isArrayTree (Tree.node b fs)) = true
      · rw [if_pos ho, sanTree]
        rfl
      · rw [if_neg ho]
        rfl

mutual
/-- Second sanitizer pass: sanitizing the re-injection of the first-pass
output of a clean tree reproduces that output exactly, for any heap owning
both the original injected objects and the re-injected ones, any visited set
below the re-injection base, and any fuel above the number of re-injected
objects. -/
theorem sanitizeValueFuel_reinject (t : Tree) (next m : Nat) (seen : Finset Nat)
    (fuel : Nat) (h2 : Heap)
    (hc : cleanTree t = true)
    (hsi : subHeap (injectTree t next).2.1 h2)
    (hsr : subHeap (reinjectS (sanTree t next) m).2.1 h2)
    (hseen : ∀ a ∈ seen, a < m)
    (hfuel : sizeS (sanTree t next) < fuel) :
    sanitizeValueFuel h2 fuel (reinjectS (sanTree t next) m).1 seen =
      (sanTree t next, extra2Tree t next m) := by
  cases t with
  | prim p =>
    match fuel, hfuel with
    | f + 1, _ => rfl
  | node b fs =>
    obtain ⟨hfas, hlog, hcf⟩ := cleanTree_node hc
    match fuel, hfuel with
    | f + 1, hfuel =>
      have hnotin : m ∉ seen := fun hmem => absurd (hseen m hmem) (lt_irrefl m)
      have hsplit := subHeap_of_cons (by simpa only [sanTree, reinjectS] using hsr)
      have hlk : lookupObj h2 m =
          some ⟨false, (reinjectFieldsS (sanFields fs (next + 1)) (m + 1)).1⟩ :=
        hsplit.1
      have hsf : subHeap (reinjectFieldsS (sanFields fs (next + 1)) (m + 1)).2.1 h2 :=
        hsplit.2
      have hsif : subHeap (injectFields fs (next + 1)).2.1 h2 :=
        (subHeap_of_cons (by simpa only [injectTree] using hsi)).2
      have hfasB : isFastifyObject
          ⟨false, (reinjectFieldsS (sanFields fs (next + 1)) (m + 1)).1⟩ = false := by
        rw [isFastifyObject_reinjectFields _ _ _ hcf]
        exact hfas
      have hseen2 : ∀ a ∈ insert m seen, a < m + 1 := by
        intro a ha
        rcases Finset.mem_insert.mp ha with ha | ha
        · omega
        · have := hseen a ha
          omega
      have hfuel2 : sizeSF (sanFields fs (next + 1)) < f := by
        have hsz : sizeS (sanTree (.node b fs) next) =
            1 + sizeSF (sanFields fs (next + 1)) := rfl
        omega
      have hrec := sanitizeFields_reinject fs (next + 1) (m + 1) (insert m seen) f h2
        hcf hsif hsf hseen2 hfuel2
      show sanitizeValueFuel h2 (f + 1) (.ref m) seen = _
      simp only [sanitizeValueFuel, hnotin, if_neg, hlk, hfasB, Bool.false_eq_true,
        if_false, hrec, sanTree, extra2Tree]
/-- Second sanitizer pass over re-injected output fields of a clean field
list. -/
theorem sanitizeFields_reinject (fs : TreeFields) (next m : Nat) (seen : Finset Nat)
    (fuel : Nat) (h2 : Heap)
    (hc : cleanFields fs = true)
    (hsi : subHeap (injectFields fs next).2.1 h2)
    (hsr : subHeap (reinjectFieldsS (sanFields fs next) m).2.1 h2)
    (hseen : ∀ a ∈ seen, a < m)
    (hfuel : sizeSF (sanFields fs next) < fuel) :
    sanitizeFields h2 (fun v s => sanitizeValueFuel h2 fuel v s)
      (reinjectFieldsS (sanFields fs next) m).1 seen =
      (sanFields fs next, extra2Fields fs next m) := by
  cases fs with
  | nil => rfl
  | cons k t rest =>
    obtain ⟨hks, hct, hcr⟩ := cleanFields_cons hc
    have hnksP : ¬(isSensitiveKey k = true) := by simp [hks]
    have hsplit := subHeap_of_append (by simpa only [injectFields] using hsi)
    have hsit : subHeap (injectTree t next).2.1 h2 := hsplit.1
    have hsir : subHeap (injectFields rest (injectTree t next).2.2).2.1 h2 := hsplit.2
    have hsplit2 := subHeap_of_append
      (by simpa only [sanFields_cons, reinjectFieldsS] using hsr)
    have hsrt : subHeap (reinjectS (sanEntryOut k t next) m).2.1 h2 := hsplit2.1
    have hsrr : subHeap (reinjectFieldsS (sanFields rest (injectTree t next).2.2)
        (reinjectS (sanEntryOut k t next) m).2.2).2.1 h2 := hsplit2.2
    have hszcons : sizeSF (sanFields (.cons k t rest) next) =
        sizeS (sanEntryOut k t next) +
          sizeSF (sanFields rest (injectTree t next).2.2) := by
      rw [sanFields_cons]
      rfl
    have hentry : sanitizeEntry h2 (fun v s => sanitizeValueFuel h2 fuel v s) k
        ((reinjectS (sanEntryOut k t next) m).1) seen =
        (sanEntryOut k t next, extra2Entry k t next m) := by
      rw [sanitizeEntry, if_neg hnksP, extra2Entry, if_neg hnksP,
        isObjectVal_reinject_entry k t next m hks]
      by_cases hhead : (k == "headers" && isObjectTree t) = true
      · have hse : sanEntryOut k t next = headersOut t next := by
          rw [sanEntryOut, if_neg hnksP, if_pos hhead]
        rw [if_pos hhead, if_pos hhead]
        cases t with
        | prim p => simp [isObjectTree] at hhead
        | node b2 fs2 =>
          rw [hse]
          have hlk2 : lookupObj h2 m = some
              ⟨false, (reinjectFieldsS (headersFields fs2 (next + 1)) (m + 1)).1⟩ :=
            (subHeap_of_cons (by simpa only [headersOut, reinjectS] using
              (hse ▸ hsrt))).1
          simp only [headersOut, reinjectS, sanitizeHeadersVal, hlk2,
            sanitizeHeaders_reinject]
      · rw [if_neg hhead, if_neg hhead]
        by_cases hobj : (isObjectTree t && !isArrayTree t) = true
        · have hse : sanEntryOut k t next = sanTree t next := by
            rw [sanEntryOut, if_neg hnksP, if_neg hhead, if_pos hobj]
          rw [if_pos hobj]
          cases t with
          | prim p => simp [isObjectTree] at hobj
          | node b2 fs2 =>
            have harr2 : isArrayVal h2 ((reinjectS (sanEntryOut k
                (.node b2 fs2) next) m).1) = false := by
              rw [hse]
              have hlk2 : lookupObj h2 m = some ⟨false,
                  (reinjectFieldsS (sanFields fs2 (next + 1)) (m + 1)).1⟩ :=
                (subHeap_of_cons (by simpa only [sanTree, reinjectS] using
                  (hse ▸ hsrt))).1
              simp only [sanTree, reinjectS, isArrayVal, hlk2]
            rw [harr2]
            simp only [Bool.not_false, Bool.and_true, if_pos]
            rw [hse]
            refine sanitizeValueFuel_reinject (.node b2 fs2) next m seen fuel h2
              hct hsit (hse ▸ hsrt) hseen ?_
            have := hszcons
            rw [hse] at this
            omega
        · have hse : sanEntryOut k t next = .pass (injVal t next) := by
            rw [sanEntryOut, if_neg hnksP, if_neg hhead, if_neg hobj]
          rw [if_neg hobj, hse]
          show (if (isObjectTree t && !isArrayVal h2 (injVal t next)) = true then
            sanitizeValueFuel h2 fuel (injVal t next) seen
          else (SVal.pass (injVal t next), ∅)) = (SVal.pass (injVal t next), ∅)
          rw [isArrayVal_injVal h2 t next hsit, if_neg hobj]
    have hseen2 : ∀ a ∈ seen ∪ extra2Entry k t next m,
        a < (reinjectS (sanEntryOut k t next) m).2.2 := by
      intro a ha
      rcases Finset.mem_union.mp ha with ha | ha
      · have h1 := hseen a ha
        have h2 := reinjectS_le (sanEntryOut k t next) m
        omega
      · exact (extra2Entry_bounds k t next m a ha).2
    have hfuel2 : sizeSF (sanFields rest (injectTree t next).2.2) < fuel := by
      omega
    have hrest := sanitizeFields_reinject rest (injectTree t next).2.2
      (reinjectS (sanEntryOut k t next) m).2.2 (seen ∪ extra2Entry k t next m) fuel h2
      hcr hsir hsrr hseen2 hfuel2
    rw [sanFields_cons, extra2Fields_cons]
    simp only [reinjectFieldsS, sanitizeFields, hentry, hrest]
end

theorem subHeap_self {h : Heap} (hnd : (h.map Prod.fst).Nodup) : subHeap h h :=
  fun _ hp => lookupObj_of_mem_of_nodup hnd hp

theorem isLoggerObject_injVal_clean (h : Heap) (t : Tree) (next : Nat)
    (hc : cleanTree t = true) (hs : subHeap (injectTree t next).2.1 h) :
    isLoggerObject h (injVal t next) = false := by
  rw [isLoggerObject_injVal h t next hs]
  cases t with
  | prim _ => rfl
  | node b fs => exact (cleanTree_node hc).2.1

theorem isLoggerObject_reinject_sanTree (h2 : Heap) (t : Tree) (n m : Nat)
    (hc : cleanTree t = true)
    (hsr : subHeap (reinjectS (sanTree t n) m).2.1 h2) :
    isLoggerObject h2 ((reinjectS (sanTree t n) m).1) = false := by
  cases t with
  | prim p => rfl
  | node b fs =>
    obtain ⟨hfas, hlog, hcf⟩ := cleanTree_node hc
    have hlk : lookupObj h2 m =
        some ⟨false, (reinjectFieldsS (sanFields fs (n + 1)) (m + 1)).1⟩ :=
      (subHeap_of_cons (by simpa only [sanTree, reinjectS] using hsr)).1
    show isLoggerObject h2 (.ref m) = false
    simp only [isLoggerObject, hlk, isFnField_reinjectFields _ _ _ _ hcf]
    exact hlog

theorem filter_injectArgs (ts : List Tree) (next : Nat) (h : Heap)
    (hc : ∀ t ∈ ts, cleanTree t = true)
    (hs : subHeap (injectArgs ts next).2.1 h) :
    ((injectArgs ts next).1.filter fun arg => !isLoggerObject h arg) =
      (injectArgs ts next).1 := by
  induction ts generalizing next with
  | nil => rfl
  | cons t rest ih =>
    have hsplit := subHeap_of_append (by simpa only [injectArgs] using hs)
    simp only [injectArgs, List.filter_cons, injectTree_fst]
    rw [isLoggerObject_injVal_clean h t next (hc t (by simp)) hsplit.1]
    simp only [Bool.not_false, if_true]
    rw [ih (injectTree t next).2.2 (fun u hu => hc u (by simp [hu])) hsplit.2]

theorem sanitizeSeq_injectArgs (ts : List Tree) (next : Nat) (seen : Finset Nat)
    (h : Heap)
    (hc : ∀ t ∈ ts, cleanTree t = true)
    (hs : subHeap (injectArgs ts next).2.1 h)
    (hseen : ∀ a ∈ seen, a < next)
    (hfuel : ∀ t ∈ ts, sizeTree t < h.length + 1) :
    sanitizeSeq h (injectArgs ts next).1 seen = sanArgs ts next := by
  induction ts generalizing next seen with
  | nil => rfl
  | cons t rest ih =>
    have hsplit := subHeap_of_append (by simpa only [injectArgs] using hs)
    have hhead := sanitizeValueFuel_injectTree t next seen (h.length + 1) h
      (hc t (by simp)) hsplit.1 hseen (hfuel t (by simp))
    have hseen2 : ∀ a ∈ seen ∪ extraTree t next, a < (injectTree t next).2.2 := by
      intro a ha
      rcases Finset.mem_union.mp ha with ha | ha
      · have h1 := hseen a ha
        have h2 := injectTree_le t next
        omega
      · exact (extraTree_bounds t next a ha).2
    have hrest := ih (injectTree t next).2.2 (seen ∪ extraTree t next)
      (fun u hu => hc u (by simp [hu])) hsplit.2 hseen2
      (fun u hu => hfuel u (by simp [hu]))
    simp only [injectArgs, sanitizeSeq, sanitizeValue, injectTree_fst, hhead, hrest,
      sanArgs]

theorem filter_reinjectArgs (ts : List Tree) (next m : Nat) (h2 : Heap)
    (hc : ∀ t ∈ ts, cleanTree t = true)
    (hsr : subHeap (reinjectArgs (sanArgs ts next) m).2.1 h2) :
    ((reinjectArgs (sanArgs ts next) m).1.filter fun arg => !isLoggerObject h2 arg) =
      (reinjectArgs (sanArgs ts next) m).1 := by
  induction ts generalizing next m with
  | nil => rfl
  | cons t rest ih =>
    have hsplit := subHeap_of_append
      (by simpa only [sanArgs, reinjectArgs] using hsr)
    simp only [sanArgs, reinjectArgs, List.filter_cons]
    rw [isLoggerObject_reinject_sanTree h2 t next m (hc t (by simp)) hsplit.1]
    simp only [Bool.not_false, if_true]
    rw [ih (injectTree t next).2.2 (reinjectS (sanTree t next) m).2.2
      (fun u hu => hc u (by simp [hu])) hsplit.2]

theorem sanitizeSeq_reinjectArgs (ts : List Tree) (next m : Nat) (seen : Finset Nat)
    (h2 : Heap)
    (hc : ∀ t ∈ ts, cleanTree t = true)
    (hsi : subHeap (injectArgs ts next).2.1 h2)
    (hsr : subHeap (reinjectArgs (sanArgs ts next) m).2.1 h2)
    (hseen : ∀ a ∈ seen, a < m)
    (hfuel : ∀ s ∈ sanArgs ts next, sizeS s < h2.length + 1) :
    sanitizeSeq h2 (reinjectArgs (sanArgs ts next) m).1 seen = sanArgs ts next := by
  induction ts generalizing next m seen with
  | nil => rfl
  | cons t rest ih =>
    have hsplit := subHeap_of_append (by simpa only [injectArgs] using hsi)
    have hsplit2 := subHeap_of_append
      (by simpa only [sanArgs, reinjectArgs] using hsr)
    have hhead := sanitizeValueFuel_reinject t next m seen (h2.length + 1) h2
      (hc t (by simp)) hsplit.1 hsplit2.1 hseen
      (hfuel (sanTree t next) (by simp [sanArgs]))
    have hseen2 : ∀ a ∈ seen ∪ extra2Tree t next m,
        a < (reinjectS (sanTree t next) m).2.2 := by
      intro a ha
      rcases Finset.mem_union.mp ha with ha | ha
      · have h1 := hseen a ha
        have hb := reinjectS_le (sanTree t next) m
        omega
      · exact (extra2Tree_bounds t next m a ha).2
    have hrest := ih (injectTree t next).2.2 (reinjectS (sanTree t next) m).2.2
      (seen ∪ extra2Tree t next m)
      (fun u hu => hc u (by simp [hu])) hsplit.2 hsplit2.2 hseen2
      (fun s hs2 => hfuel s (by simp [sanArgs, hs2]))
    simp only [sanArgs, reinjectArgs, sanitizeSeq, sanitizeValue, hhead, hrest]

/-- C8: the sanitizer is idempotent on inputs free of sensitive keys, cycles
(values are finite unshared trees), logger-shaped objects and
framework-shaped objects: re-running sanitizeLogArgs on its own output
(re-materialised as JavaScript values on top of the original heap) returns
that output unchanged.  Termination of both passes is inherent (the
embedding is a total function). -/
theorem sanitizeLogArgs_idempotent (ts : List Tree)
    (hc : ∀ t ∈ ts, cleanTree t = true) :
    sanitizeLogArgs
        ((injectArgs ts 0).2.1 ++
          (reinjectArgs (sanitizeLogArgs (injectArgs ts 0).2.1 (injectArgs ts 0).1)
            (injectArgs ts 0).2.2).2.1)
        (reinjectArgs (sanitizeLogArgs (injectArgs ts 0).2.1 (injectArgs ts 0).1)
          (injectArgs ts 0).2.2).1 =
      sanitizeLogArgs (injectArgs ts 0).2.1 (injectArgs ts 0).1 := by
  have hnd1 : (((injectArgs ts 0).2.1).map Prod.fst).Nodup := injectArgs_nodup ts 0
  have hsh1 : subHeap (injectArgs ts 0).2.1 (injectArgs ts 0).2.1 := subHeap_self hnd1
  have hfuel1 : ∀ t ∈ ts, sizeTree t < (injectArgs ts 0).2.1.length + 1 := by
    intro t ht
    have := sizeTree_le_injectArgs ts 0 t ht
    omega
  have hout : sanitizeLogArgs (injectArgs ts 0).2.1 (injectArgs ts 0).1 =
      sanArgs ts 0 := by
    rw [sanitizeLogArgs, filter_injectArgs ts 0 _ hc hsh1]
    exact sanitizeSeq_injectArgs ts 0 ∅ _ hc hsh1 (by simp) hfuel1
  rw [hout]
  set h1 := (injectArgs ts 0).2.1 with hh1
  set next1 := (injectArgs ts 0).2.2 with hnext1
  set newPart := (reinjectArgs (sanArgs ts 0) next1).2.1 with hnew
  have hsi2 : subHeap h1 (h1 ++ newPart) := subHeap_append_ext hsh1
  have hsr2 : subHeap newPart (h1 ++ newPart) := by
    intro p hp
    have hb := reinjectArgs_bounds (sanArgs ts 0) next1 p hp
    have hnone : lookupObj h1 p.1 = none := by
      refine lookupObj_eq_none ?_
      intro q hq he
      have hq2 := injectArgs_bounds ts 0 q hq
      omega
    rw [lookupObj_append_right hnone]
    exact lookupObj_of_mem_of_nodup (reinjectArgs_nodup (sanArgs ts 0) next1) hp
  have hfuel2 : ∀ s ∈ sanArgs ts 0, sizeS s < (h1 ++ newPart).length + 1 := by
    intro s hs2
    have h3 := sizeS_le_reinjectArgs (sanArgs ts 0) next1 s hs2
    rw [← hnew] at h3
    have h4 : newPart.length ≤ (h1 ++ newPart).length := by
      simp [List.length_append]
    omega
  rw [sanitizeLogArgs, filter_reinjectArgs ts 0 next1 _ hc hsr2]
  exact sanitizeSeq_reinjectArgs ts 0 next1 ∅ _ hc hsi2 hsr2 (by simp) hfuel2

/-- Witness for C8 at a concrete clean argument list with a nested object,
an array property, a headers property and a primitive argument. -/
theorem sanitizeLogArgs_idempotent_witness :
    (∀ t ∈ [Tree.node false (.cons "name" (.prim (.str "bob"))
        (.cons "nested" (.node false (.cons "x" (.prim (.num 1)) .nil))
          (.cons "items" (.node true (.cons "0" (.prim (.num 2)) .nil))
            (.cons "headers" (.node false (.cons "h" (.prim (.str "v")) .nil))
              .nil)))), Tree.prim .null], cleanTree t = true) ∧
    sanitizeLogArgs
        ((injectArgs [Tree.node false (.cons "name" (.prim (.str "bob"))
            (.cons "nested" (.node false (.cons "x" (.prim (.num 1)) .nil))
              (.cons "items" (.node true (.cons "0" (.prim (.num 2)) .nil))
                (.cons "headers" (.node false (.cons "h" (.prim (.str "v")) .nil))
                  .nil)))), Tree.prim .null] 0).2.1 ++
          (reinjectArgs (sanitizeLogArgs
              (injectArgs [Tree.node false (.cons "name" (.prim (.str "bob"))
                (.cons "nested" (.node false (.cons "x" (.prim (.num 1)) .nil))
                  (.cons "items" (.node true (.cons "0" (.prim (.num 2)) .nil))
                    (.cons "headers" (.node false (.cons "h" (.prim (.str "v")) .nil))
                      .nil)))), Tree.prim .null] 0).2.1
              (injectArgs [Tree.node false (.cons "name" (.prim (.str "bob"))
                (.cons "nested" (.node false (.cons "x" (.prim (.num 1)) .nil))
                  (.cons "items" (.node true (.cons "0" (.prim (.num 2)) .nil))
                    (.cons "headers" (.node false (.cons "h" (.prim (.str "v")) .nil))
                      .nil)))), Tree.prim .null] 0).1)
            (injectArgs [Tree.node false (.cons "name" (.prim (.str "bob"))
              (.cons "nested" (.node false (.cons "x" (.prim (.num 1)) .nil))
                (.cons "items" (.node true (.cons "0" (.prim (.num 2)) .nil))
                  (.cons "headers" (.node false (.cons "h" (.prim (.str "v")) .nil))
                    .nil)))), Tree.prim .null] 0).2.2).2.1)
        (reinjectArgs (sanitizeLogArgs
            (injectArgs [Tree.node false (.cons "name" (.prim (.str "bob"))
              (.cons "nested" (.node false (.cons "x" (.prim (.num 1)) .nil))
                (.cons "items" (.node true (.cons "0" (.prim (.num 2)) .nil))
                  (.cons "headers" (.node false (.cons "h" (.prim (.str "v")) .nil))
                    .nil)))), Tree.prim .null] 0).2.1
            (injectArgs [Tree.node false (.cons "name" (.prim (.str "bob"))
              (.cons "nested" (.node false (.cons "x" (.prim (.num 1)) .nil))
                (.cons "items" (.node true (.cons "0" (.prim (.num 2)) .nil))
                  (.cons "headers" (.node false (.cons "h" (.prim (.str "v")) .nil))
                    .nil)))), Tree.prim .null] 0).1)
          (injectArgs [Tree.node false (.cons "name" (.prim (.str "bob"))
            (.cons "nested" (.node false (.cons "x" (.prim (.num 1)) .nil))
              (.cons "items" (.node true (.cons "0" (.prim (.num 2)) .nil))
                (.cons "headers" (.node false (.cons "h" (.prim (.str "v")) .nil))
                  .nil)))), Tree.prim .null] 0).2.2).1 =
      sanitizeLogArgs
        (injectArgs [Tree.node false (.cons "name" (.prim (.str "bob"))
          (.cons "nested" (.node false (.cons "x" (.prim (.num 1)) .nil))
            (.cons "items" (.node true (.cons "0" (.prim (.num 2)) .nil))
              (.cons "headers" (.node false (.cons "h" (.prim (.str "v")) .nil))
                .nil)))), Tree.prim .null] 0).2.1
        (injectArgs [Tree.node false (.cons "name" (.prim (.str "bob"))
          (.cons "nested" (.node false (.cons "x" (.prim (.num 1)) .nil))
            (.cons "items" (.node true (.cons "0" (.prim (.num 2)) .nil))
              (.cons "headers" (.node false (.cons "h" (.prim (.str "v")) .nil))
                .nil)))), Tree.prim .null] 0).1 :=
  ⟨by decide, sanitizeLogArgs_idempotent _ (by decide)⟩

end ApiServicePoc
